import Mathlib

/-!
Shallow embedding of the oscars mark-sweep garbage collector
(boa-dev/oscars) together with proofs about its specification claims.

Sources embedded here:
- src/oscars/src/collectors/mark_sweep/internals/gc_header.rs
- src/oscars/src/collectors/mark_sweep/internals/gc_box.rs
- src/oscars/src/collectors/mark_sweep/internals/ephemeron.rs
- src/oscars/src/collectors/mark_sweep/pointers/gc.rs
- src/oscars/src/collectors/mark_sweep/pointers/weak_map.rs
- src/oscars/src/collectors/mark_sweep/mod.rs
- src/oscars/src/alloc/arena3/mod.rs and alloc.rs
-/

namespace Oscars

/-! ## Trace colors (collectors/mark_sweep/trace.rs)

The trace color type is referenced throughout the collector sources
(`TraceColor::White`, `TraceColor::Black`, `flip`).  Modelled from the
spec: `epoch_color ∈ {White, Black}` and the epoch flip exchanges them. -/

inductive TraceColor
  | White
  | Black
deriving DecidableEq, Repr

/-- Modelled from the spec: the epoch flip (`flip(sweep_color)`) swaps
White and Black. -/
def TraceColor.flip : TraceColor → TraceColor
  | .White => .Black
  | .Black => .White

/-! ## Header flags, bit level (gc_header.rs)

`WHITE_MARK_BITS = 0b00`, `BLACK_MARK_BITS = 0b11`, `GREY_MARK_BITS = 0b01`.
Flags are a u8; we model the byte as a `Nat` and keep the exact mask
arithmetic of the source. -/

def WHITE_MARK_BITS : Nat := 0
def BLACK_MARK_BITS : Nat := 3
def GREY_MARK_BITS : Nat := 1

structure HeaderFlags where
  bits : Nat
deriving DecidableEq, Repr

def HeaderFlags.new_white : HeaderFlags := ⟨WHITE_MARK_BITS⟩

def HeaderFlags.new_black : HeaderFlags := ⟨BLACK_MARK_BITS⟩

/-- `is_white`: check only the color bits (`self.0 & BLACK_MARK_BITS == 0`). -/
def HeaderFlags.is_white (f : HeaderFlags) : Bool :=
  f.bits &&& BLACK_MARK_BITS == 0

/-- `is_black`: `self.0 & BLACK_MARK_BITS == BLACK_MARK_BITS`. -/
def HeaderFlags.is_black (f : HeaderFlags) : Bool :=
  f.bits &&& BLACK_MARK_BITS == BLACK_MARK_BITS

/-- `is_grey`: `self.0 & BLACK_MARK_BITS == GREY_MARK_BITS`. -/
def HeaderFlags.is_grey (f : HeaderFlags) : Bool :=
  f.bits &&& BLACK_MARK_BITS == GREY_MARK_BITS

/-- `mark_grey`: clear both color bits before ORing in grey.  The u8
complement `!BLACK_MARK_BITS` is `0b1111_1100 = 252`. -/
def HeaderFlags.mark_grey (f : HeaderFlags) : HeaderFlags :=
  ⟨(f.bits &&& 252) ||| GREY_MARK_BITS⟩

/-- `mark_black`: `self.0 | BLACK_MARK_BITS`. -/
def HeaderFlags.mark_black (f : HeaderFlags) : HeaderFlags :=
  ⟨f.bits ||| BLACK_MARK_BITS⟩

/-- `mark_white`: `self.0 & !BLACK_MARK_BITS` (clear color bits). -/
def HeaderFlags.mark_white (f : HeaderFlags) : HeaderFlags :=
  ⟨f.bits &&& 252⟩

inductive HeaderColor
  | White
  | Black
  | Grey
deriving DecidableEq, Repr

/-- A GC header: packed flags plus a u16 root counter (gc_header.rs).
The root counter is modelled as a `Nat`; u16 semantics appear in
`inc_roots` through the explicit `checked_add` bound. -/
structure GcHeader where
  flags : HeaderFlags
  root_count : Nat
deriving DecidableEq, Repr

def GcHeader.new_white : GcHeader := ⟨HeaderFlags.new_white, 0⟩

def GcHeader.new_black : GcHeader := ⟨HeaderFlags.new_black, 0⟩

/-- `new_typed::<IS_WHITE>`: the color is inverted at initialization;
if the target trace color is white the fresh header is black, and vice
versa (gc_header.rs lines 90-101). -/
def GcHeader.new_typed (IS_WHITE : Bool) : GcHeader :=
  if IS_WHITE then GcHeader.new_black else GcHeader.new_white

/-- u16 `checked_add` used by `inc_roots`: `none` models the panic in
`expect` when the sum exceeds `u16::MAX = 65535`. -/
def checkedAddU16 (a b : Nat) : Option Nat :=
  if a + b ≤ 65535 then some (a + b) else none

/-- `inc_roots`: crashes (here: `none`) on u16 overflow. -/
def GcHeader.inc_roots (h : GcHeader) : Option GcHeader :=
  match checkedAddU16 h.root_count 1 with
  | some r => some { h with root_count := r }
  | none => none

/-- `dec_roots`: `saturating_sub(1)`, never panics (total function);
truncated `Nat` subtraction is exactly u16 `saturating_sub` here. -/
def GcHeader.dec_roots (h : GcHeader) : GcHeader :=
  { h with root_count := h.root_count - 1 }

def GcHeader.is_rooted (h : GcHeader) : Bool :=
  h.root_count > 0

def GcHeader.mark (h : GcHeader) : HeaderColor → GcHeader
  | .White => { h with flags := h.flags.mark_white }
  | .Black => { h with flags := h.flags.mark_black }
  | .Grey => { h with flags := h.flags.mark_grey }

def GcHeader.is_white (h : GcHeader) : Bool := h.flags.is_white
def GcHeader.is_black (h : GcHeader) : Bool := h.flags.is_black
def GcHeader.is_grey (h : GcHeader) : Bool := h.flags.is_grey

/-! ## GcBox header construction and reachability (gc_box.rs) -/

/-- `GcBox::new_typed_in` chooses the fresh header from the trace color
(gc_box.rs lines 108-127): trace color White selects
`GcHeader::new_typed::<true>` (a black header) and Black selects
`new_typed::<false>` (a white header).  The weak flag of the newer
two-parameter `new_typed` is not present in gc_header.rs and does not
affect the color bits. -/
def GcBox.new_typed_in_header : TraceColor → GcHeader
  | .White => GcHeader.new_typed true
  | .Black => GcHeader.new_typed false

/-- `GcBox::is_reachable` (gc_box.rs lines 144-149): under trace color
Black, reachable means black-or-grey; under White, white-or-grey. -/
def GcBox.is_reachable_header (h : GcHeader) : TraceColor → Bool
  | .Black => h.is_black || h.is_grey
  | .White => h.is_white || h.is_grey

/-- `GcBox::set_unmarked` (gc_box.rs lines 131-137): mark with the
opposite of the collection color. -/
def GcBox.set_unmarked_header (h : GcHeader) : TraceColor → GcHeader
  | .White => h.mark HeaderColor.Black
  | .Black => h.mark HeaderColor.White

/-! ## Ephemeron reachability (ephemeron.rs, weak_map.rs, mod.rs)

`Ephemeron::is_reachable` in ephemeron.rs (lines 46-48) delegates to the
key:  `self.key.is_reachable(color)`, which is `GcBox::is_reachable` on
the key's header.  The `active` flag and `invalidate` are called from
weak_map.rs and documented in mod.rs ("If it's reachable according to
the color, and it's active (both are checked inside the vtable-dispatched
is_reachable_fn)") but their definitions are not under src/. -/

/-- View of an ephemeron for the reachability check: the `active` flag
(Modelled from the spec: `invalidate` sets `active = false`; new
ephemerons start active; `is_reachable` requires `active`) together
with the key header flags read through the weak box. -/
structure EphemeronView where
  active : Bool
  keyFlags : HeaderFlags
deriving DecidableEq, Repr

/-- The vtable-dispatched `is_reachable_fn` (ephemeron.rs lines 132-144
plus the `active` conjunct documented in mod.rs): active and the key
header reachable under the given color. -/
def Ephemeron.is_reachable_view (e : EphemeronView) (c : TraceColor) : Bool :=
  e.active && GcBox.is_reachable_header ⟨e.keyFlags, 0⟩ c

/-- The predicate claimed by the spec for `is_reachable`: the key header
color differs from the color argument (written here exactly as the spec
words it: for White, the key is not white; for Black, not black). -/
def specColorDiffers (f : HeaderFlags) : TraceColor → Bool
  | .White => !f.is_white
  | .Black => !f.is_black

/-! ## Arena (alloc/arena3/alloc.rs)

A fixed size slot buffer: `[ bitmap ][ slots ]`.  Slots are identified
by their index (`slot_index` divides the byte offset by `slot_size`);
the embedded free list threaded through slot memory is modelled as the
list of freed slot indices, head first (the head is the slot whose first
word would be read by `alloc_slot`). -/

structure Arena where
  slot_size : Nat
  slot_count : Nat
  bitmap_words : Nat
  /-- Occupancy bitmap, one 64-bit word per entry; bit `i % 64` of word
  `i / 64` encodes slot `i`. -/
  bitmap : List Nat
  /-- Next never-allocated slot index. -/
  bump : Nat
  /-- Embedded LIFO free list: indices of freed slots, most recent first. -/
  free_list : List Nat
  live : Nat
  active_raw_allocs : Nat
deriving DecidableEq, Repr

/-- Set bit `i` of the bitmap (`bitmap_set`). -/
def bitmapSet (bm : List Nat) (i : Nat) : List Nat :=
  bm.set (i / 64) ((bm.getD (i / 64) 0) ||| (1 <<< (i % 64)))

/-- Clear bit `i` of the bitmap (`bitmap_clear`, `word & !(1 << (i%64))`
on u64: AND with the 64-bit complement of the mask). -/
def bitmapClear (bm : List Nat) (i : Nat) : List Nat :=
  bm.set (i / 64) ((bm.getD (i / 64) 0) &&& ((2 ^ 64 - 1) ^^^ (1 <<< (i % 64))))

/-- `Arena::alloc_slot` (alloc.rs lines 224-249): pop the free list if
non-empty, else bump-allocate; on success set the bitmap bit and
increment `live`. -/
def Arena.alloc_slot (a : Arena) : Option (Nat × Arena) :=
  match a.free_list with
  | fl :: rest =>
      some (fl, { a with
        free_list := rest
        bitmap := bitmapSet a.bitmap fl
        live := a.live + 1 })
  | [] =>
      if a.bump ≥ a.slot_count then
        none
      else
        some (a.bump, { a with
          bump := a.bump + 1
          bitmap := bitmapSet a.bitmap a.bump
          live := a.live + 1 })

/-- `Arena::free_slot` (alloc.rs lines 252-261): clear the bitmap bit,
push the slot onto the free list, saturating-decrement `live`. -/
def Arena.free_slot (a : Arena) (idx : Nat) : Arena :=
  { a with
    bitmap := bitmapClear a.bitmap idx
    free_list := idx :: a.free_list
    live := a.live - 1 }

/-- `Arena::run_drop_check` (alloc.rs lines 299-314): false if any raw
allocation is active, false if any slot is live, false if any bitmap
word is nonzero; true otherwise. -/
def Arena.run_drop_check (a : Arena) : Bool :=
  if a.active_raw_allocs > 0 then false
  else if a.live > 0 then false
  else a.bitmap.all (fun w => w == 0)

/-- `Arena::mark_slot`: set the bitmap bit for a slot that has no
header of its own (used for ephemerons during the mark phase). -/
def Arena.mark_slot (a : Arena) (idx : Nat) : Arena :=
  { a with bitmap := bitmapSet a.bitmap idx }

/-! ## ArenaAllocator (alloc/arena3/mod.rs) -/

structure ArenaAllocator where
  heap_threshold : Nat
  arena_size : Nat
  current_heap_size : Nat
  typed_arenas : List Arena
  raw_arenas : List Arena
  free_cache : Nat
  alloc_cache : List Nat
deriving DecidableEq, Repr

/-- Heap size in bytes of one arena: `layout.size()`.  The model keeps
the total in `current_heap_size` and per-arena sizes are only consumed
through `drop_dead_arenas`; we expose the per-arena contribution as the
slot area plus bitmap bytes. -/
def Arena.layout_size (a : Arena) : Nat :=
  a.bitmap_words * 8 + a.slot_count * a.slot_size

/-- `ArenaAllocator::is_below_threshold` (mod.rs lines 109-113): keep a
25% margin; `saturating_sub` is `Nat` truncated subtraction. -/
def ArenaAllocator.is_below_threshold (al : ArenaAllocator) : Bool :=
  al.current_heap_size ≤ al.heap_threshold - al.heap_threshold / 4

/-- `ArenaAllocator::drop_dead_arenas` (mod.rs lines 261-282): retain
only arenas failing `run_drop_check`, subtracting reclaimed sizes from
the heap size, then invalidate both caches.  usize::MAX is modelled by
the sentinel value `2 ^ 64 - 1`. -/
def ArenaAllocator.drop_dead_arenas (al : ArenaAllocator) : ArenaAllocator :=
  let reclaimedTyped := (al.typed_arenas.filter (fun a => a.run_drop_check)).foldl
    (fun acc a => acc + a.layout_size) 0
  let reclaimedRaw := (al.raw_arenas.filter (fun a => a.run_drop_check)).foldl
    (fun acc a => acc + a.layout_size) 0
  { al with
    typed_arenas := al.typed_arenas.filter (fun a => !a.run_drop_check)
    raw_arenas := al.raw_arenas.filter (fun a => !a.run_drop_check)
    current_heap_size := al.current_heap_size - reclaimedTyped - reclaimedRaw
    free_cache := 2 ^ 64 - 1
    alloc_cache := al.alloc_cache.map (fun _ => 2 ^ 64 - 1) }

/-! ## WeakMap (pointers/weak_map.rs)

`WeakMapInner.entries : FxHashMap<usize, ArenaPointer<Ephemeron>>` is
modelled as a function from key addresses to ephemeron ids; the
collector-owned ephemeron nodes live in a store from ids to records.
`Ephemeron::invalidate` is called by weak_map.rs but its definition is
not under src/; Modelled from the spec: "Insert replaces the prior
ephemeron and invalidates it (`active = false`)". -/

structure WMEphemeron (V : Type) where
  active : Bool
  value : V
deriving DecidableEq, Repr

structure WMState (V : Type) where
  /-- Collector-owned ephemeron nodes, by id (arena address). -/
  ephStore : Nat → Option (WMEphemeron V)
  /-- `WeakMapInner::entries`: key address to ephemeron id. -/
  entries : Nat → Option Nat
  /-- Next fresh ephemeron id handed out by the allocator. -/
  nextId : Nat

/-- `WeakMapInner::remove_and_invalidate` (weak_map.rs lines 36-40):
remove the entry and mark the old ephemeron inactive. -/
def WMState.remove_and_invalidate {V : Type} (s : WMState V) (key_addr : Nat) :
    WMState V :=
  match s.entries key_addr with
  | some oldId =>
      { s with
        entries := fun k => if k = key_addr then none else s.entries k
        ephStore := fun i =>
          if i = oldId then (s.ephStore i).map (fun e => { e with active := false })
          else s.ephStore i }
  | none => s

/-- `WeakMap::insert` (weak_map.rs lines 116-131): remove-and-invalidate
the previous ephemeron for the key, allocate a fresh ephemeron node
holding the new value (active; Modelled from the spec), and store it in
the table. -/
def WMState.insert {V : Type} (s : WMState V) (key_addr : Nat) (v : V) :
    WMState V :=
  let s1 := s.remove_and_invalidate key_addr
  let id := s1.nextId
  let s2 := { s1 with
    ephStore := fun i => if i = id then some ⟨true, v⟩ else s1.ephStore i
    nextId := id + 1 }
  { s2 with entries := fun k => if k = key_addr then some id else s2.entries k }

/-! ## Collector state (collectors/mark_sweep/mod.rs)

The heap of GC nodes is a partial map from node ids (erased arena
pointers) to node records.  A node record carries the data the collector
reads through the header and the vtable: the header color, the root
count, and the list of child node ids that the type's `trace`
implementation dispatches to.  The three header colors are the
abstraction of the flag bytes 0b00 / 0b01 / 0b11. -/

inductive HColor
  | white
  | grey
  | black
deriving DecidableEq, Repr

/-- Flag byte of each abstract color (gc_header.rs bit patterns). -/
def HColor.bits : HColor → Nat
  | .white => 0
  | .grey => 1
  | .black => 3

/-- The color written by a completed `trace_impl` under a trace color
(gc_box.rs: White traces end with `mark(White)`, Black with Black). -/
def markedFor : TraceColor → HColor
  | .White => .white
  | .Black => .black

/-- The color of an object not yet marked this cycle; this is what
`GcBox::set_unmarked` writes and what `new_typed_in` installs. -/
def unmarkedFor : TraceColor → HColor
  | .White => .black
  | .Black => .white

/-- `GcBox::is_reachable` on abstract colors. -/
def hIsReachable (col : HColor) : TraceColor → Bool
  | .Black => col == .black || col == .grey
  | .White => col == .white || col == .grey

structure Node where
  color : HColor
  roots : Nat
  children : List Nat
deriving DecidableEq, Repr

abbrev Heap := Nat → Option Node

/-- Write a header color in place (the `Cell` store in `GcHeader.mark`). -/
def setColor (h : Heap) (id : Nat) (col : HColor) : Heap :=
  fun i => if i = id then (h i).map (fun n => { n with color := col }) else h i

/-- `GcBox::trace_impl` (gc_box.rs lines 187-210): if the node carries
the unmarked color, mark it grey, dispatch `trace` to every child in
order, then write the full mark color; otherwise do nothing.  The
recursion through the heap graph is realized with explicit fuel; the
adequacy lemmas below show the chosen fuel is large enough whenever
every live node is tracked by the root queue. -/
def traceNode (c : TraceColor) : Nat → Heap → Nat → Heap
  | 0, h, _ => h
  | fuel + 1, h, id =>
    match h id with
    | none => h
    | some n =>
      if n.color = unmarkedFor c then
        setColor (n.children.foldl (traceNode c fuel) (setColor h id .grey))
          id (markedFor c)
      else h

/-- An ephemeron node (internals/ephemeron.rs): `active` flag (whose
definition is missing from src/ and Modelled from the spec), the weak
key pointer, and the inline `GcBox<V>` value with its own header color
and traced children. -/
structure EphNode where
  active : Bool
  key : Nat
  valColor : HColor
  valChildren : List Nat
deriving DecidableEq, Repr

abbrev EphHeap := Nat → Option EphNode

def setValColor (eh : EphHeap) (e : Nat) (col : HColor) : EphHeap :=
  fun i => if i = e then (eh i).map (fun en => { en with valColor := col }) else eh i

/-- Remove an ephemeron node (`drop_fn` plus `free_slot`). -/
def removeEph (eh : EphHeap) (e : Nat) : EphHeap :=
  fun i => if i = e then none else eh i

/-- Remove a GC node (`drop_fn` plus `free_slot`). -/
def removeNode (h : Heap) (id : Nat) : Heap :=
  fun i => if i = id then none else h i

/-- The vtable-dispatched ephemeron `is_reachable_fn` over the model
state: the node is active and its key header is reachable under the
color. -/
def ephReachable (h : Heap) (eh : EphHeap) (e : Nat) (c : TraceColor) : Bool :=
  match eh e with
  | none => false
  | some en =>
    en.active &&
      (match h en.key with
       | some kn => hIsReachable kn.color c
       | none => false)

/-- The ephemeron vtable `trace_fn` (ephemeron.rs lines 104-120): trace
the key (a full `GcBox` trace through the weak box) and then trace the
inline value box (its own `trace_impl`: grey, children, full mark). -/
def traceEph (c : TraceColor) (fuel : Nat) (h : Heap) (eh : EphHeap) (e : Nat) :
    Heap × EphHeap :=
  match eh e with
  | none => (h, eh)
  | some en =>
    let h1 := traceNode c fuel h en.key
    if en.valColor = unmarkedFor c then
      let eh1 := setValColor eh e .grey
      let h2 := en.valChildren.foldl (traceNode c fuel) h1
      (h2, setValColor eh1 e (markedFor c))
    else (h1, eh)

structure GcState where
  heap : Heap
  ephs : EphHeap
  rootQueue : List Nat
  ephQueue : List Nat
  traceColor : TraceColor
  collectNeeded : Bool
  isCollecting : Bool
  pendingRoots : List Nat
  pendingEphs : List Nat
  nextId : Nat

/-- One step of the root loop in `run_mark_phase` (mod.rs lines
238-245): dispatch `trace_fn` only when the node is rooted. -/
def markRootsStep (c : TraceColor) (fuel : Nat) (h : Heap) (p : Nat) : Heap :=
  match h p with
  | some n => if n.roots > 0 then traceNode c fuel h p else h
  | none => h

/-- `run_mark_phase` (mod.rs lines 235-265): trace every rooted node in
the root queue, then walk the ephemeron queue, tracing each reachable
ephemeron (the arena `mark_slot` call touches only the arena bitmap,
which is modelled in the Arena section). -/
def runMarkPhase (fuel : Nat) (s : GcState) : GcState :=
  let c := s.traceColor
  let h1 := s.rootQueue.foldl (markRootsStep c fuel) s.heap
  let he := s.ephQueue.foldl
    (fun (he : Heap × EphHeap) e =>
      if ephReachable he.1 he.2 e c then traceEph c fuel he.1 he.2 e else he)
    (h1, s.ephs)
  { s with heap := he.1, ephs := he.2 }

/-- The `extract_if` pass over the root queue in `run_sweep_phase`
(mod.rs lines 273-291): for every queue entry, if it is not reachable,
finalize it (user hook, no state effect on the model records) and, if
it is rooted after finalization, re-trace it; extract it exactly when
it is still unreachable.  Returns (kept, extracted, heap). -/
def sweepRootsScan (c : TraceColor) (fuel : Nat) :
    Heap → List Nat → List Nat × List Nat × Heap
  | h, [] => ([], [], h)
  | h, p :: ps =>
    let h1 :=
      match h p with
      | some n =>
        if !hIsReachable n.color c then
          (if n.roots > 0 then traceNode c fuel h p else h)
        else h
      | none => h
    let dead :=
      match h1 p with
      | some n => !hIsReachable n.color c
      | none => true
    let rest := sweepRootsScan c fuel h1 ps
    if dead then (rest.1, p :: rest.2.1, rest.2.2)
    else (p :: rest.1, rest.2.1, rest.2.2)

/-- The `extract_if` pass over the ephemeron queue (mod.rs lines
293-313): unreachable entries are finalized (no model effect), rechecked
and conditionally re-traced, then extracted when still unreachable. -/
def sweepEphsScan (c : TraceColor) (fuel : Nat) :
    Heap → EphHeap → List Nat → List Nat × List Nat × Heap × EphHeap
  | h, eh, [] => ([], [], h, eh)
  | h, eh, e :: es =>
    let r := ephReachable h eh e c
    let he1 :=
      if !r then
        (if ephReachable h eh e c then traceEph c fuel h eh e else (h, eh))
      else (h, eh)
    let dead := !ephReachable he1.1 he1.2 e c
    let rest := sweepEphsScan c fuel he1.1 he1.2 es
    if dead then (rest.1, e :: rest.2.1, rest.2.2)
    else (e :: rest.1, rest.2.1, rest.2.2)

/-- The drop loop over extracted ephemerons (mod.rs lines 317-336):
re-check reachability; survivors are collected in order, the rest are
dropped and their slots freed. -/
def dropEphsLoop (c : TraceColor) (h : Heap) :
    EphHeap → List Nat → EphHeap × List Nat
  | eh, [] => (eh, [])
  | eh, e :: es =>
    if ephReachable h eh e c then
      let rest := dropEphsLoop c h eh es
      (rest.1, e :: rest.2)
    else
      dropEphsLoop c h (removeEph eh e) es

/-- The drop loop over extracted root nodes (mod.rs lines 338-360):
nodes found rooted are kept (revival), the rest are dropped and their
slots freed. -/
def dropRootsLoop : Heap → List Nat → Heap × List Nat
  | h, [] => (h, [])
  | h, p :: ps =>
    match h p with
    | some n =>
      if n.roots > 0 then
        let rest := dropRootsLoop h ps
        (rest.1, p :: rest.2)
      else
        dropRootsLoop (removeNode h p) ps
    | none => dropRootsLoop h ps

/-- `run_sweep_phase` (mod.rs lines 267-362). -/
def runSweepPhase (fuel : Nat) (s : GcState) : GcState :=
  let c := s.traceColor
  let r := sweepRootsScan c fuel s.heap s.rootQueue
  let e := sweepEphsScan c fuel r.2.2 s.ephs s.ephQueue
  let de := dropEphsLoop c e.2.2.1 e.2.2.2 e.2.1
  let dr := dropRootsLoop e.2.2.1 r.2.1
  { s with
    heap := dr.1
    ephs := de.1
    rootQueue := r.1 ++ dr.2
    ephQueue := e.1 ++ de.2 }

/-- The weak-map prune step of `sweep_trace_color` retains map entries
by ephemeron reachability; it reads the queues and heap but does not
modify them (weak maps are modelled in the WeakMap section). -/
def weakMapPrunePhase (s : GcState) : GcState := s

/-- The epoch flip in `sweep_trace_color` (mod.rs lines 214-216). -/
def flipEpochPhase (s : GcState) : GcState :=
  { s with traceColor := s.traceColor.flip }

/-- `drop_dead_arenas` releases empty arena pages; it does not touch the
collector queues (the allocator is modelled in the Arena section). -/
def dropDeadArenasPhase (s : GcState) : GcState := s

/-- Drain the pending queues into the main queues while `is_collecting`
is still true (mod.rs lines 222-230). -/
def flushPendingPhase (s : GcState) : GcState :=
  { s with
    rootQueue := s.rootQueue ++ s.pendingRoots
    ephQueue := s.ephQueue ++ s.pendingEphs
    pendingRoots := []
    pendingEphs := [] }

/-- Fuel that the adequacy lemmas show is sufficient whenever every live
node is tracked by the root queue. -/
def collectFuel (s : GcState) : Nat :=
  s.rootQueue.length + s.ephQueue.length + 1

/-- The body of `collect` between the guard set and the guard drop, as
the ordered list of its phases (mod.rs `collect` lines 135-154 and
`sweep_trace_color` lines 193-233): mark, weak-map prune, sweep, epoch
flip, arena reclaim, pending flush, and the second arena reclaim done
by `collect` after `sweep_trace_color` returns. -/
def collectPhases (fuel : Nat) : List (GcState → GcState) :=
  [runMarkPhase fuel, weakMapPrunePhase, runSweepPhase fuel, flipEpochPhase,
   dropDeadArenasPhase, flushPendingPhase, dropDeadArenasPhase]

/-- `MarkSweepGarbageCollector::collect`: set `is_collecting` under the
RAII guard, run all phases, and reset the flag when the guard drops. -/
def collect (s : GcState) : GcState :=
  let fuel := collectFuel s
  let s1 := { s with isCollecting := true }
  let s2 := (collectPhases fuel).foldl (fun st f => f st) s1
  { s2 with isCollecting := false }

/-- `collect` unwinding after `k` completed phases: a panic in user
`trace`, `finalize` or destructor code aborts the remaining phases, but
the `CollectingGuard` drop still clears `is_collecting` (mod.rs lines
123-129). -/
def collectUnwind (s : GcState) (k : Nat) : GcState :=
  let s1 := { s with isCollecting := true }
  let s2 := ((collectPhases (collectFuel s)).take k).foldl (fun st f => f st) s1
  { s2 with isCollecting := false }

/-- `alloc_gc_node` (mod.rs lines 602-632): run any deferred collection
first, construct the `GcBox` with the current trace color, allocate a
slot (the arena interaction is modelled in the Arena section; a fresh
id stands for the returned slot address), flag a deferred collection if
the heap crossed its threshold (`needsCollect` is the outcome of the
`is_below_threshold` check), and push the erased pointer onto the root
queue, or the pending root queue during a collection. -/
def allocGcNode (s : GcState) (children : List Nat) (needsCollect : Bool) :
    GcState × Nat :=
  let s0 :=
    if s.collectNeeded && !s.isCollecting then
      collect { s with collectNeeded := false }
    else s
  let id := s0.nextId
  let node : Node := { color := unmarkedFor s0.traceColor, roots := 0, children := children }
  let s1 := { s0 with
    heap := fun i => if i = id then some node else s0.heap i
    nextId := id + 1 }
  let s2 := if needsCollect then { s1 with collectNeeded := true } else s1
  let s3 :=
    if s2.isCollecting then { s2 with pendingRoots := s2.pendingRoots ++ [id] }
    else { s2 with rootQueue := s2.rootQueue ++ [id] }
  (s3, id)

/-- `Root::clone` (gc.rs lines 178-186): performs exactly one
`inc_roots` on the shared header; the overflow panic propagates. -/
def Root.clone_header (h : GcHeader) : Option GcHeader := h.inc_roots

/-- `Drop for Root` runs `Finalize::finalize`, which performs exactly
one `dec_roots` (gc.rs lines 158-164 and 188-192). -/
def Root.drop_header (h : GcHeader) : GcHeader := h.dec_roots

/-! ## Machinery for the steady-state analysis of collect (claim C3)

The lemmas about `collect` track three views of a heap: its shape (root
counts and children, which no mark or sweep color write changes), the
set of nodes currently carrying the full mark color, and the set
currently grey.  Marking is characterized against reachability through
unmarked nodes, phrased with `Relation.ReflTransGen`. -/

/-- The color-independent part of a node. -/
def strip (n : Node) : Nat × List Nat := (n.roots, n.children)

/-- Heaps with identical domains, root counts and children lists. -/
def sameShape (h g : Heap) : Prop :=
  ∀ id, (g id).map strip = (h id).map strip

/-- A node id present in the heap. -/
def aliveIn (h : Heap) (id : Nat) : Prop := (h id).isSome

/-- Whether a node currently carries the unmarked color for `c`. -/
def isUnm (h : Heap) (c : TraceColor) (id : Nat) : Bool :=
  match h id with
  | some n => n.color == unmarkedFor c
  | none => false

/-- Number of unmarked nodes inside a universe list `U`. -/
def countUnm (h : Heap) (c : TraceColor) (U : List Nat) : Nat :=
  U.countP (fun id => isUnm h c id)

/-- A heap realizes the pair of sets `(V, G)` when its nodes carry the
full mark color exactly on `V` and grey exactly on `G`. -/
def realizes (h : Heap) (c : TraceColor) (V G : Set Nat) : Prop :=
  ∀ id n, h id = some n →
    (n.color = markedFor c ↔ id ∈ V) ∧ (n.color = HColor.grey ↔ id ∈ G)

/-- One traversal step through nodes outside the blocked set `B`:
an edge of the heap graph between two live unblocked nodes. -/
def relU (h : Heap) (B : Set Nat) (a b : Nat) : Prop :=
  a ∉ B ∧ b ∉ B ∧ (∃ n, h a = some n ∧ b ∈ n.children) ∧ aliveIn h b

/-- A traversal path from `x` to `z` through live nodes outside `B`. -/
def pathUnm (h : Heap) (B : Set Nat) (x z : Nat) : Prop :=
  aliveIn h x ∧ x ∉ B ∧ Relation.ReflTransGen (relU h B) x z

/-- The nodes newly reachable from the starts `xs` through nodes
outside the blocked set `B`: the set a completed traversal marks. -/
def newMark (h : Heap) (B : Set Nat) (xs : List Nat) : Set Nat :=
  {z | ∃ x ∈ xs, pathUnm h B x z}

/-- Whether the root-queue mark step dispatches the node (rooted check
of run_mark_phase, stable under color writes). -/
def rootedB (h : Heap) (p : Nat) : Bool :=
  match h p with
  | some n => decide (0 < n.roots)
  | none => false

/-- Specification of one ephemeron step of the mark phase, over the
initial heap and ephemeron store: when the node is active, its key is
already marked and its inline value still unmarked, the nodes reachable
from the value's children through unmarked nodes join the marked set. -/
def ephStepSpec (h : Heap) (c : TraceColor) (eh : EphHeap) (M : Set Nat)
    (e : Nat) : Set Nat :=
  M ∪ {z | ∃ en, eh e = some en ∧ en.active = true ∧ aliveIn h en.key ∧
    en.key ∈ M ∧ en.valColor = unmarkedFor c ∧ z ∈ newMark h M en.valChildren}

/-- Marked set after the ephemeron loop of the mark phase. -/
def ephFoldSpec (h : Heap) (c : TraceColor) (eh : EphHeap) (E : List Nat)
    (M : Set Nat) : Set Nat :=
  E.foldl (ephStepSpec h c eh) M

/-- The marked set a full mark phase produces, over the initial heap:
everything reachable from the rooted queue entries, extended by the
ephemeron single-pass in queue order. -/
def markPhaseSpec (s : GcState) : Set Nat :=
  ephFoldSpec s.heap s.traceColor s.ephs s.ephQueue
    (newMark s.heap ∅ (s.rootQueue.filter (fun p => rootedB s.heap p)))

/-- Pointwise relation between an initial ephemeron store and a later
one: same domain, same active flag, key and children; only the inline
value color may have changed. -/
def ehMatches (eh0 eh : EphHeap) : Prop :=
  ∀ x, (eh0 x = none ∧ eh x = none) ∨
    (∃ en0 cv, eh0 x = some en0 ∧ eh x = some { en0 with valColor := cv })

/-- Whether a node is reachable (colored alive-or-grey) in a heap. -/
def reachB (h : Heap) (c : TraceColor) (p : Nat) : Bool :=
  match h p with
  | some n => hIsReachable n.color c
  | none => false

/-- Heap after freeing every node in a list. -/
def removeList (h : Heap) (l : List Nat) : Heap :=
  fun id => if id ∈ l then none else h id

/-- Ephemeron store after freeing every node in a list. -/
def removeEphList (eh : EphHeap) (l : List Nat) : EphHeap :=
  fun x => if x ∈ l then none else eh x

/-- A set of nodes closed under the live children of its members. -/
def childClosed (g : Heap) (S : Set Nat) : Prop :=
  ∀ a ∈ S, ∀ n, g a = some n → ∀ b ∈ n.children, aliveIn g b → b ∈ S

/-- The state of the collector outside a collection, after any sequence
of API calls in which the previous cycle completed and no allocation
took place during it: the pending queues are drained, no node is grey,
every node carries the unmarked color of the coming cycle, every live
node is tracked by the root queue and every live ephemeron by the
ephemeron queue. -/
structure SteadyState (s : GcState) : Prop where
  unmarked : realizes s.heap s.traceColor ∅ ∅
  rootsTrack : ∀ id, aliveIn s.heap id → id ∈ s.rootQueue
  rootsAlive : ∀ p ∈ s.rootQueue, aliveIn s.heap p
  ephsTrack : ∀ e, (s.ephs e).isSome → e ∈ s.ephQueue
  ephsAlive : ∀ e ∈ s.ephQueue, (s.ephs e).isSome
  ephNodup : s.ephQueue.Nodup
  ephUnmarked : ∀ e en, s.ephs e = some en →
    en.valColor = unmarkedFor s.traceColor ∨ en.valColor = markedFor s.traceColor
  pendR : s.pendingRoots = []
  pendE : s.pendingEphs = []

/-- A collector state with one tracked, unrooted node that an external
writer pre-colored with the current trace color: the first collect sees
it "reachable" and keeps it, the second sweeps it. -/
def c3CounterState : GcState :=
  { heap := fun i => if i = 0 then some ⟨HColor.white, 0, []⟩ else none
    ephs := fun _ => none
    rootQueue := [0]
    ephQueue := []
    traceColor := TraceColor.White
    collectNeeded := false
    isCollecting := false
    pendingRoots := []
    pendingEphs := []
    nextId := 1 }

/-- A steady collector state: one rooted node colored with the unmarked
color of the coming cycle, drained pending queues, no ephemerons. -/
def c3SteadyExample : GcState :=
  { heap := fun i => if i = 0 then some ⟨HColor.black, 1, []⟩ else none
    ephs := fun _ => none
    rootQueue := [0]
    ephQueue := []
    traceColor := TraceColor.White
    collectNeeded := false
    isCollecting := false
    pendingRoots := []
    pendingEphs := []
    nextId := 1 }

/-! ## Claim C1 — color of freshly allocated nodes -/

/-- C1 counterexample: a node allocated while the collector's trace
color is White receives a black header (`new_typed::<true>` is
`new_black`), so `is_reachable(White)` is false immediately after
construction, contradicting the claim that a fresh node satisfies
`is_reachable(c)` for the trace color `c` at allocation time. -/
theorem c1_counterexample :
    GcBox.is_reachable_header (GcBox.new_typed_in_header TraceColor.White)
      TraceColor.White = false := by decide

/-- C1 (amended): for every trace color `c`, the fresh header built by
`GcBox::new_typed_in` (used by both `alloc_gc_node` and, through the
ephemeron's inline value box, `alloc_ephemeron_node`) carries the
inverse of `c`: the node satisfies `is_reachable(flip c)` — the color
that is alive in the next cycle, after the epoch flip this `collect`
performs — and not `is_reachable(c)`; its root count starts at zero,
and the header color agrees with the collector model's `unmarkedFor`. -/
theorem c1_fresh_node_color (c : TraceColor) :
    GcBox.is_reachable_header (GcBox.new_typed_in_header c) c.flip = true ∧
    GcBox.is_reachable_header (GcBox.new_typed_in_header c) c = false ∧
    (GcBox.new_typed_in_header c).root_count = 0 ∧
    (GcBox.new_typed_in_header c).flags.bits = (unmarkedFor c).bits := by
  cases c <;> exact ⟨rfl, rfl, rfl, rfl⟩

/-! ## Claim C2 — ephemeron reachability -/

/-- C2 counterexample: an active ephemeron whose key header is black is
reachable under color Black (`is_black || is_grey` holds), yet the
claimed characterization "active and key color differs from c" is false
there, since black does not differ from Black. -/
theorem c2_counterexample :
    ¬ (Ephemeron.is_reachable_view ⟨true, ⟨3⟩⟩ TraceColor.Black = true ↔
        ((⟨true, ⟨3⟩⟩ : EphemeronView).active = true ∧
         specColorDiffers (⟨3⟩ : HeaderFlags) TraceColor.Black = true)) := by
  decide

/-- C2 (amended): for every ephemeron view with a well-formed key flag
byte, the vtable-dispatched `is_reachable(e, c)` returns true exactly
when `e` is active and the header color of `e`'s key differs from the
flip of `c` (the color that is dead this cycle), i.e. the key is
colored `c` or grey. -/
theorem c2_is_reachable_characterization (e : EphemeronView) (c : TraceColor)
    (wf : e.keyFlags.is_white = true ∨ e.keyFlags.is_grey = true ∨
      e.keyFlags.is_black = true) :
    (Ephemeron.is_reachable_view e c = true ↔
      e.active = true ∧ specColorDiffers e.keyFlags c.flip = true) := by
  have hbits : e.keyFlags.bits &&& 3 = 0 ∨ e.keyFlags.bits &&& 3 = 1 ∨
      e.keyFlags.bits &&& 3 = 3 := by
    rcases wf with h | h | h
    · exact Or.inl (by simpa [HeaderFlags.is_white, BLACK_MARK_BITS] using h)
    · exact Or.inr (Or.inl (by
        simpa [HeaderFlags.is_grey, BLACK_MARK_BITS, GREY_MARK_BITS] using h))
    · exact Or.inr (Or.inr (by
        simpa [HeaderFlags.is_black, BLACK_MARK_BITS] using h))
  cases c <;> rcases hbits with hb | hb | hb <;>
    simp [Ephemeron.is_reachable_view, GcBox.is_reachable_header,
      specColorDiffers, TraceColor.flip, GcHeader.is_white, GcHeader.is_black,
      GcHeader.is_grey, HeaderFlags.is_white, HeaderFlags.is_black,
      HeaderFlags.is_grey, BLACK_MARK_BITS, GREY_MARK_BITS, hb]

/-- Witness for C2: the characterization evaluated at an active
ephemeron with a white key under trace color White. -/
theorem c2_witness :
    Ephemeron.is_reachable_view ⟨true, ⟨0⟩⟩ TraceColor.White = true ↔
      ((⟨true, ⟨0⟩⟩ : EphemeronView).active = true ∧
       specColorDiffers (⟨0⟩ : HeaderFlags) TraceColor.White.flip = true) :=
  c2_is_reachable_characterization ⟨true, ⟨0⟩⟩ TraceColor.White
    (Or.inl (by decide))

/-! ## Claim C4 — heap threshold headroom -/

/-- C4 counterexample: with `arena_size = 4096` and
`heap_threshold = 4096`, a heap of 3072 bytes is below the threshold
(margin is `4096 / 4 = 1024`), yet `heap_size ≤ heap_threshold −
arena_size` fails (`4096 − 4096 = 0`).  The claimed implication does
not hold for every configuration. -/
theorem c4_counterexample :
    ArenaAllocator.is_below_threshold
      ⟨4096, 4096, 3072, [], [], 0, []⟩ = true ∧
    ¬ ((3072 : Nat) ≤ 4096 - 4096) := by decide

/-- C4 (amended): `is_below_threshold` is exactly the check
`heap_size ≤ heap_threshold − heap_threshold / 4`, and whenever the
configured `arena_size` does not exceed the 25% margin
`heap_threshold / 4`, `is_below_threshold` implies
`heap_size ≤ heap_threshold − arena_size`. -/
theorem c4_below_threshold (al : ArenaAllocator)
    (hm : al.arena_size ≤ al.heap_threshold / 4) :
    (al.is_below_threshold = true →
      al.current_heap_size ≤ al.heap_threshold - al.arena_size) ∧
    (al.is_below_threshold = true ↔
      al.current_heap_size ≤ al.heap_threshold - al.heap_threshold / 4) := by
  constructor
  · intro h
    have := of_decide_eq_true h
    omega
  · exact ⟨fun h => of_decide_eq_true h, fun h => decide_eq_true h⟩

/-- Witness for C4 at the default configuration (`arena_size = 4096`,
`heap_threshold = 2097152`) with an empty heap. -/
theorem c4_witness :
    ((4096 : Nat) ≤ 2097152 / 4) ∧
    ((ArenaAllocator.is_below_threshold ⟨2097152, 4096, 0, [], [], 0, []⟩ = true →
        (0 : Nat) ≤ 2097152 - 4096) ∧
      (ArenaAllocator.is_below_threshold ⟨2097152, 4096, 0, [], [], 0, []⟩ = true ↔
        (0 : Nat) ≤ 2097152 - 2097152 / 4)) :=
  ⟨by decide, c4_below_threshold ⟨2097152, 4096, 0, [], [], 0, []⟩ (by decide)⟩

/-! ## Claim C5 — drop check and arena reclamation -/

/-- C5: `run_drop_check` holds exactly when no slot is live, no raw
allocation is outstanding and every bitmap word is zero; and
`drop_dead_arenas` removes exactly the typed and raw arenas passing
`run_drop_check`, retaining all others in order. -/
theorem c5_drop_check_exact :
    (∀ a : Arena, a.run_drop_check = true ↔
      (a.live = 0 ∧ a.active_raw_allocs = 0 ∧ ∀ w ∈ a.bitmap, w = 0)) ∧
    (∀ al : ArenaAllocator,
      al.drop_dead_arenas.typed_arenas =
        al.typed_arenas.filter (fun a => !a.run_drop_check) ∧
      al.drop_dead_arenas.raw_arenas =
        al.raw_arenas.filter (fun a => !a.run_drop_check)) := by
  constructor
  · intro a
    unfold Arena.run_drop_check
    constructor
    · intro h
      by_cases h1 : a.active_raw_allocs > 0
      · simp [h1] at h
      · by_cases h2 : a.live > 0
        · simp [h1, h2] at h
        · simp only [h1, h2, if_false] at h
          refine ⟨by omega, by omega, ?_⟩
          intro w hw
          have := List.all_eq_true.mp h w hw
          simpa using this
    · rintro ⟨h1, h2, h3⟩
      simp only [h1, h2, gt_iff_lt, lt_irrefl, if_false]
      exact List.all_eq_true.mpr fun w hw => by simpa using h3 w hw
  · intro al
    exact ⟨rfl, rfl⟩

/-- Witness for C5: a freshly initialized empty arena passes the drop
check, a one-slot-live arena does not, and reclamation keeps exactly
the live one. -/
theorem c5_witness :
    ((⟨16, 4, 1, [0], 0, [], 0, 0⟩ : Arena).run_drop_check = true ↔
      ((0 : Nat) = 0 ∧ (0 : Nat) = 0 ∧ ∀ w ∈ [(0 : Nat)], w = 0)) ∧
    (ArenaAllocator.drop_dead_arenas
        ⟨128, 64, 64, [⟨16, 4, 1, [1], 1, [], 1, 0⟩], [], 0, []⟩).typed_arenas =
      ([⟨16, 4, 1, [1], 1, [], 1, 0⟩] : List Arena).filter
        (fun a => !a.run_drop_check) :=
  ⟨c5_drop_check_exact.1 ⟨16, 4, 1, [0], 0, [], 0, 0⟩,
   (c5_drop_check_exact.2 ⟨128, 64, 64, [⟨16, 4, 1, [1], 1, [], 1, 0⟩], [], 0, []⟩).1⟩

/-! ## Claim C6 — LIFO slot reuse -/

/-- C6: for every slot returned by a successful `alloc_slot`, freeing
it and allocating again returns the same slot: `free_slot` pushes the
slot onto the head of the embedded free list, and `alloc_slot` pops the
head before considering bump allocation. -/
theorem c6_free_then_alloc_returns_same (a a' : Arena) (p : Nat)
    (h : a.alloc_slot = some (p, a')) :
    ∃ a'', (a'.free_slot p).alloc_slot = some (p, a'') :=
  ⟨_, rfl⟩

/-- Witness for C6: a fresh two-slot arena; the first allocation
returns slot 0 and the free/alloc round trip returns slot 0 again. -/
theorem c6_witness :
    (⟨8, 2, 1, [0], 0, [], 0, 0⟩ : Arena).alloc_slot =
      some (0, ⟨8, 2, 1, [1], 1, [], 1, 0⟩) ∧
    ∃ a'', ((⟨8, 2, 1, [1], 1, [], 1, 0⟩ : Arena).free_slot 0).alloc_slot =
      some (0, a'') :=
  ⟨by decide,
   c6_free_then_alloc_returns_same ⟨8, 2, 1, [0], 0, [], 0, 0⟩
     ⟨8, 2, 1, [1], 1, [], 1, 0⟩ 0 (by decide)⟩

/-! ## Claim C9 — root count overflow and saturation -/

/-- C9: incrementing a root count already at `u16::MAX` is a fatal
error (`checked_add` fails and `expect` panics, modelled as `none`),
while below the maximum it adds exactly one; `dec_roots` saturates at
zero and never panics (it is a total function); `Root::clone` performs
exactly one increment and `Root::drop` exactly one decrement. -/
theorem c9_root_count_contract :
    (∀ h : GcHeader, h.root_count = 65535 → h.inc_roots = none) ∧
    (∀ h : GcHeader, h.root_count < 65535 →
      h.inc_roots = some { h with root_count := h.root_count + 1 }) ∧
    (∀ h : GcHeader, h.root_count = 0 → h.dec_roots.root_count = 0) ∧
    (∀ h : GcHeader, h.dec_roots.root_count = h.root_count - 1) ∧
    (∀ h : GcHeader, Root.clone_header h = h.inc_roots) ∧
    (∀ h : GcHeader, Root.drop_header h = h.dec_roots) := by
  refine ⟨?_, ?_, ?_, fun h => rfl, fun _ => rfl, fun _ => rfl⟩
  · intro h hc
    simp [GcHeader.inc_roots, checkedAddU16, hc]
  · intro h hc
    have hle : h.root_count + 1 ≤ 65535 := by omega
    simp [GcHeader.inc_roots, checkedAddU16, hle]
  · intro h hc
    simp [GcHeader.dec_roots, hc]

/-- Witness for C9: the contract evaluated at saturated and zero
headers. -/
theorem c9_witness :
    (GcHeader.mk ⟨0⟩ 65535).inc_roots = none ∧
    (GcHeader.mk ⟨0⟩ 4).inc_roots = some (GcHeader.mk ⟨0⟩ 5) ∧
    (GcHeader.mk ⟨0⟩ 0).dec_roots.root_count = 0 :=
  ⟨c9_root_count_contract.1 (GcHeader.mk ⟨0⟩ 65535) rfl,
   c9_root_count_contract.2.1 (GcHeader.mk ⟨0⟩ 4) (by decide),
   c9_root_count_contract.2.2.1 (GcHeader.mk ⟨0⟩ 0) rfl⟩

/-! ## Helper lemmas about the sweep and the phases -/

/-- The ephemeron `extract_if` pass never mutates state (the finalize
hook has no model effect, so the conditional re-trace is dead code):
it partitions the queue by reachability against the incoming state. -/
theorem sweepEphsScan_eq (c : TraceColor) (fuel : Nat) (h : Heap)
    (eh : EphHeap) (es : List Nat) :
    sweepEphsScan c fuel h eh es =
      (es.filter (fun e => ephReachable h eh e c),
       es.filter (fun e => !ephReachable h eh e c), h, eh) := by
  induction es with
  | nil => rfl
  | cons e es ih =>
    by_cases hr : ephReachable h eh e c = true
    · simp [sweepEphsScan, hr, ih]
    · simp at hr
      simp [sweepEphsScan, hr, ih]

/-- Removing one ephemeron can only lose reachability of others. -/
theorem removeEph_reachable (h : Heap) (eh : EphHeap) (x e : Nat)
    (c : TraceColor) (hr : ephReachable h (removeEph eh x) e c = true) :
    ephReachable h eh e c = true := by
  by_cases hex : e = x
  · subst hex
    simp [ephReachable, removeEph] at hr
  · simpa [ephReachable, removeEph, hex] using hr

/-- Every survivor of the ephemeron drop loop was reachable in the
state the loop started from. -/
theorem dropEphsLoop_alive_reachable (c : TraceColor) (h : Heap) :
    ∀ (es : List Nat) (eh : EphHeap) (e : Nat),
      e ∈ (dropEphsLoop c h eh es).2 → ephReachable h eh e c = true := by
  intro es
  induction es with
  | nil => intro eh e he; simp [dropEphsLoop] at he
  | cons x xs ih =>
    intro eh e he
    by_cases hr : ephReachable h eh x c = true
    · simp only [dropEphsLoop, hr, if_true] at he
      rcases List.mem_cons.mp he with h1 | h1
      · subst h1; exact hr
      · exact ih eh e h1
    · simp only [dropEphsLoop, hr, if_false] at he
      exact removeEph_reachable h eh x e c (ih (removeEph eh x) e he)

/-- Every phase of `collect` leaves the `is_collecting` flag alone; the
flag is governed solely by the guard. -/
theorem collectPhases_preserve_isCollecting (fuel : Nat) :
    ∀ f ∈ collectPhases fuel, ∀ st : GcState, (f st).isCollecting = st.isCollecting := by
  intro f hf st
  simp only [collectPhases, List.mem_cons, List.mem_singleton] at hf
  rcases hf with rfl | rfl | rfl | rfl | rfl | rfl | rfl | hf
  · rfl
  · rfl
  · rfl
  · rfl
  · rfl
  · rfl
  · rfl
  · simp at hf

/-- Folding flag-preserving phases preserves the flag. -/
theorem foldl_preserve_isCollecting :
    ∀ (fs : List (GcState → GcState)),
      (∀ f ∈ fs, ∀ st : GcState, (f st).isCollecting = st.isCollecting) →
      ∀ st : GcState,
        (fs.foldl (fun st f => f st) st).isCollecting = st.isCollecting := by
  intro fs
  induction fs with
  | nil => intro _ st; rfl
  | cons g gs ih =>
    intro hp st
    have h1 := hp g (List.mem_cons_self g gs) st
    have h2 := ih (fun q hq => hp q (List.mem_cons_of_mem g hq)) (g st)
    rw [List.foldl_cons, h2, h1]

/-- `collect` always returns with `is_collecting = false`. -/
theorem collect_isCollecting_false (s : GcState) :
    (collect s).isCollecting = false := rfl

/-- `alloc_gc_node` never changes the observable `is_collecting` flag:
a deferred collection only runs when the flag is false and resets it to
false. -/
theorem allocGcNode_isCollecting (s : GcState) (ch : List Nat) (nc : Bool) :
    ((allocGcNode s ch nc).1).isCollecting = s.isCollecting := by
  unfold allocGcNode
  by_cases hd : (s.collectNeeded && !s.isCollecting) = true
  · have hic : s.isCollecting = false := by
      by_cases hx : s.isCollecting = true
      · simp [hx] at hd
      · simpa using hx
    simp only [hd, if_true]
    by_cases hn : nc = true <;>
      simp [hn, collect_isCollecting_false, hic, collect]
  · simp only [hd, if_false]
    by_cases hn : nc = true <;> by_cases hic : s.isCollecting = true <;>
      simp [hn, hic]

/-! ## Claim C7 — WeakMap insert invalidates the prior ephemeron -/

/-- C7: inserting over an existing key marks the previously stored
ephemeron inactive and installs a freshly allocated ephemeron holding
the new value under the same key; and the sweep phase never keeps an
inactive ephemeron in the ephemeron queue, so once invalidated the old
node is reclaimed by the next `collect`. -/
theorem c7_insert_invalidates :
    (∀ (V : Type) (s : WMState V) (k oldId : Nat) (oldE : WMEphemeron V) (v2 : V),
      s.entries k = some oldId →
      s.ephStore oldId = some oldE →
      oldId < s.nextId →
      (s.insert k v2).ephStore oldId = some { oldE with active := false } ∧
      (s.insert k v2).entries k = some s.nextId ∧
      s.nextId ≠ oldId ∧
      (s.insert k v2).ephStore s.nextId = some ⟨true, v2⟩) ∧
    (∀ (gs : GcState) (fuel e : Nat) (en : EphNode),
      gs.ephs e = some en → en.active = false →
      e ∉ (runSweepPhase fuel gs).ephQueue) := by
  constructor
  · intro V s k oldId oldE v2 hk hst hfresh
    have hne : s.nextId ≠ oldId := by omega
    have hne' : oldId ≠ s.nextId := by omega
    refine ⟨?_, ?_, hne, ?_⟩
    · simp [WMState.insert, WMState.remove_and_invalidate, hk, hne', hst]
    · simp [WMState.insert, WMState.remove_and_invalidate, hk]
    · simp [WMState.insert, WMState.remove_and_invalidate, hk]
  · intro gs fuel e en hen hact hmem
    unfold runSweepPhase at hmem
    simp only [sweepEphsScan_eq, List.mem_append] at hmem
    have hnr : ∀ hh : Heap, ephReachable hh gs.ephs e gs.traceColor = false := by
      intro hh
      simp [ephReachable, hen, hact]
    rcases hmem with hmem | hmem
    · have := List.mem_filter.mp hmem
      rw [hnr] at this
      simp at this
    · have := dropEphsLoop_alive_reachable gs.traceColor _ _ _ e hmem
      rw [hnr] at this
      simp at this

/-- Witness for C7: a one-entry map over `Nat` updated at its key, and
an inactive ephemeron in a tiny collector state that the sweep drops. -/
theorem c7_witness :
    ((WMState.insert
        ⟨fun i => if i = 0 then some ⟨true, 10⟩ else none,
         fun k => if k = 5 then some 0 else none, 1⟩ 5 20).ephStore 0 =
      some ⟨false, 10⟩ ∧
     (WMState.insert
        ⟨fun i => if i = 0 then some ⟨true, 10⟩ else none,
         fun k => if k = 5 then some 0 else none, 1⟩ 5 20).entries 5 =
      some 1 ∧
     (1 : Nat) ≠ 0 ∧
     (WMState.insert
        ⟨fun i => if i = 0 then some ⟨true, 10⟩ else none,
         fun k => if k = 5 then some 0 else none, 1⟩ 5 20).ephStore 1 =
      some ⟨true, 20⟩) ∧
    (7 : Nat) ∉ (runSweepPhase 1
      ⟨fun _ => none, fun i => if i = 7 then some ⟨false, 0, HColor.white, []⟩ else none,
       [], [7], TraceColor.White, false, true, [], [], 0⟩).ephQueue :=
  ⟨c7_insert_invalidates.1 Nat
      ⟨fun i => if i = 0 then some ⟨true, 10⟩ else none,
       fun k => if k = 5 then some 0 else none, 1⟩ 5 0 ⟨true, 10⟩ 20
      rfl rfl (by decide),
   c7_insert_invalidates.2
      ⟨fun _ => none, fun i => if i = 7 then some ⟨false, 0, HColor.white, []⟩ else none,
       [], [7], TraceColor.White, false, true, [], [], 0⟩ 1 7
      ⟨false, 0, HColor.white, []⟩ rfl rfl⟩

/-! ## Claim C8 — the is_collecting guard -/

/-- C8: during `collect` every phase observes `is_collecting = true`
(the state fed to the phases after any prefix has the flag set); on
every exit path — normal completion or an unwind after any number of
completed phases — the guard resets the flag to false; and allocation,
the only other collector entry point, never changes the flag, so the
flag is never observed true outside a running `collect`. -/
theorem c8_collecting_guard :
    (∀ (s : GcState) (k : Nat),
      (((collectPhases (collectFuel s)).take k).foldl
        (fun (st : GcState) (f : GcState → GcState) => f st)
        { s with isCollecting := true }).isCollecting = true) ∧
    (∀ (s : GcState) (k : Nat), (collectUnwind s k).isCollecting = false) ∧
    (∀ s : GcState, (collect s).isCollecting = false) ∧
    (∀ (s : GcState) (ch : List Nat) (nc : Bool),
      ((allocGcNode s ch nc).1).isCollecting = s.isCollecting) := by
  refine ⟨?_, fun s k => rfl, fun s => rfl, allocGcNode_isCollecting⟩
  intro s k
  have := foldl_preserve_isCollecting
    ((collectPhases (collectFuel s)).take k)
    (fun f hf => collectPhases_preserve_isCollecting (collectFuel s) f
      (List.take_subset k _ hf))
    { s with isCollecting := true }
  simpa using this

/-! ## Claim C10 — allocation always enqueues the node -/

/-- C10: every successful `alloc_gc_node` pushes the fresh node's
erased pointer onto the root queue, or onto the pending root queue when
`is_collecting` is true, with no condition on the root count (the fresh
node is created with zero roots and is enqueued all the same); the
mark phase is where rootedness is filtered: its root-queue step is the
identity on nodes whose `root_count` is zero. -/
theorem c10_alloc_always_enqueues :
    (∀ (s : GcState) (ch : List Nat) (nc : Bool),
      ((allocGcNode s ch nc).2 ∈ ((allocGcNode s ch nc).1).rootQueue ∨
        (allocGcNode s ch nc).2 ∈ ((allocGcNode s ch nc).1).pendingRoots) ∧
      ((allocGcNode s ch nc).1).heap (allocGcNode s ch nc).2 =
        some { color := unmarkedFor (((allocGcNode s ch nc).1).traceColor),
               roots := 0, children := ch } ∧
      (s.isCollecting = true →
        ((allocGcNode s ch nc).1).pendingRoots =
          s.pendingRoots ++ [(allocGcNode s ch nc).2] ∧
        ((allocGcNode s ch nc).1).rootQueue = s.rootQueue)) ∧
    (∀ (c : TraceColor) (fuel : Nat) (h : Heap) (p : Nat) (n : Node),
      h p = some n → n.roots = 0 → markRootsStep c fuel h p = h) := by
  constructor
  · intro s ch nc
    by_cases hic : s.isCollecting = true
    · have hd : (s.collectNeeded && !s.isCollecting) = false := by simp [hic]
      by_cases hn : nc = true <;>
        refine ⟨Or.inr ?_, ?_, fun _ => ⟨?_, ?_⟩⟩ <;>
          simp [allocGcNode, hd, hic, hn, unmarkedFor]
    · have hic' : s.isCollecting = false := by simpa using hic
      by_cases hcn : s.collectNeeded = true
      · by_cases hn : nc = true <;>
          refine ⟨Or.inl ?_, ?_, fun htrue => absurd htrue (by simp [hic'])⟩ <;>
            simp [allocGcNode, hcn, hic', hn, collect_isCollecting_false]
      · by_cases hn : nc = true <;>
          refine ⟨Or.inl ?_, ?_, fun htrue => absurd htrue (by simp [hic'])⟩ <;>
            simp [allocGcNode, hcn, hic', hn]
  · intro c fuel h p n hp hr
    simp [markRootsStep, hp, hr]

/-- Witness for C10: allocation into a mid-collection state lands in
the pending root queue, and the mark step skips an unrooted node. -/
theorem c10_witness :
    ((allocGcNode
        ⟨fun _ => none, fun _ => none, [], [], TraceColor.White, false, true,
         [], [], 0⟩ [] false).1).pendingRoots =
      [] ++ [(allocGcNode
        ⟨fun _ => none, fun _ => none, [], [], TraceColor.White, false, true,
         [], [], 0⟩ [] false).2] ∧
    markRootsStep TraceColor.White 1
      (fun i => if i = 0 then some ⟨HColor.white, 0, []⟩ else none) 0 =
      (fun i => if i = 0 then some ⟨HColor.white, 0, []⟩ else none) :=
  ⟨((c10_alloc_always_enqueues.1
      ⟨fun _ => none, fun _ => none, [], [], TraceColor.White, false, true,
       [], [], 0⟩ [] false).2.2 rfl).1,
   c10_alloc_always_enqueues.2 TraceColor.White 1
     (fun i => if i = 0 then some ⟨HColor.white, 0, []⟩ else none) 0
     ⟨HColor.white, 0, []⟩ (by simp) rfl⟩

/-! ## Shape preservation lemmas (claim C3) -/

theorem sameShape_refl (h : Heap) : sameShape h h := fun _ => rfl

theorem sameShape_trans {h g k : Heap} (h1 : sameShape h g) (h2 : sameShape g k) :
    sameShape h k := fun id => (h2 id).trans (h1 id)

theorem setColor_strip (h : Heap) (id : Nat) (col : HColor) (i : Nat) :
    ((setColor h id col) i).map strip = (h i).map strip := by
  unfold setColor
  by_cases hi : i = id
  · subst hi
    cases h i <;> simp [strip]
  · simp [hi]

theorem sameShape_setColor (h : Heap) (id : Nat) (col : HColor) :
    sameShape h (setColor h id col) := fun i => setColor_strip h id col i

theorem traceNode_strip (c : TraceColor) :
    ∀ (fuel : Nat) (h : Heap) (id i : Nat),
      ((traceNode c fuel h id) i).map strip = (h i).map strip := by
  intro fuel
  induction fuel with
  | zero => intro h id i; rfl
  | succ fuel ih =>
    intro h id i
    unfold traceNode
    cases hx : h id with
    | none => rfl
    | some n =>
      by_cases hc : n.color = unmarkedFor c
      · have hfold : ∀ (xs : List Nat) (g : Heap),
            (∀ j, (g j).map strip = (h j).map strip) →
            ∀ j, ((xs.foldl (traceNode c fuel) g) j).map strip = (h j).map strip := by
          intro xs
          induction xs with
          | nil => intro g hg j; exact hg j
          | cons a as iha =>
            intro g hg j
            exact iha (traceNode c fuel g a)
              (fun j2 => (ih g a j2).trans (hg j2)) j
        simp only [hc, if_pos]
        exact (setColor_strip _ id (markedFor c) i).trans
          (hfold n.children (setColor h id .grey)
            (fun j => setColor_strip h id .grey j) i)
      · simp [hc]

theorem sameShape_traceNode (c : TraceColor) (fuel : Nat) (h : Heap) (id : Nat) :
    sameShape h (traceNode c fuel h id) := fun i => traceNode_strip c fuel h id i

theorem sameShape_traceList (c : TraceColor) (fuel : Nat) (xs : List Nat) :
    ∀ h : Heap, sameShape h (xs.foldl (traceNode c fuel) h) := by
  induction xs with
  | nil => intro h; exact sameShape_refl h
  | cons a as ih =>
    intro h
    exact sameShape_trans (sameShape_traceNode c fuel h a) (ih (traceNode c fuel h a))

/-! ## Path and newMark lemmas (claim C3) -/

theorem pathUnm_endpoint {h : Heap} {B : Set Nat} {x z : Nat}
    (hp : pathUnm h B x z) : aliveIn h z ∧ z ∉ B := by
  obtain ⟨hx, hxB, hrtg⟩ := hp
  induction hrtg with
  | refl => exact ⟨hx, hxB⟩
  | tail _ hstep _ => exact ⟨hstep.2.2.2, hstep.2.1⟩

theorem pathUnm_trans {h : Heap} {B : Set Nat} {x w z : Nat}
    (h1 : pathUnm h B x w) (h2 : Relation.ReflTransGen (relU h B) w z) :
    pathUnm h B x z :=
  ⟨h1.1, h1.2.1, h1.2.2.trans h2⟩

theorem relU_mono {h : Heap} {B C : Set Nat} (hBC : B ⊆ C) {a b : Nat}
    (hr : relU h C a b) : relU h B a b :=
  ⟨fun ha => hr.1 (hBC ha), fun hb => hr.2.1 (hBC hb), hr.2.2⟩

theorem pathUnm_mono {h : Heap} {B C : Set Nat} (hBC : B ⊆ C) {x z : Nat}
    (hp : pathUnm h C x z) : pathUnm h B x z :=
  ⟨hp.1, fun hx => hp.2.1 (hBC hx),
    Relation.ReflTransGen.mono (fun _ _ => relU_mono hBC) hp.2.2⟩

theorem newMark_mono_blocked {h : Heap} {B C : Set Nat} (hBC : B ⊆ C)
    (xs : List Nat) : newMark h C xs ⊆ newMark h B xs := by
  rintro z ⟨x, hx, hp⟩
  exact ⟨x, hx, pathUnm_mono hBC hp⟩

theorem newMark_nil (h : Heap) (B : Set Nat) : newMark h B [] = ∅ := by
  ext z
  simp [newMark]

theorem newMark_cons (h : Heap) (B : Set Nat) (x : Nat) (xs : List Nat) :
    newMark h B (x :: xs) = newMark h B [x] ∪ newMark h B xs := by
  ext z
  constructor
  · rintro ⟨a, ha, hp⟩
    rcases List.mem_cons.mp ha with h1 | h1
    · subst h1
      exact Or.inl ⟨_, List.mem_singleton_self _, hp⟩
    · exact Or.inr ⟨a, h1, hp⟩
  · rintro (⟨a, ha, hp⟩ | ⟨a, ha, hp⟩)
    · have h1 := List.mem_singleton.mp ha
      subst h1
      exact ⟨_, List.mem_cons_self _ _, hp⟩
    · exact ⟨a, List.mem_cons_of_mem _ ha, hp⟩

theorem newMark_subset_compl {h : Heap} {B : Set Nat} {xs : List Nat} :
    ∀ z ∈ newMark h B xs, aliveIn h z ∧ z ∉ B := by
  rintro z ⟨x, _, hp⟩
  exact pathUnm_endpoint hp

/-- A start inside the blocked set contributes nothing. -/
theorem newMark_single_blocked {h : Heap} {B : Set Nat} {x : Nat}
    (hx : x ∈ B) : newMark h B [x] = ∅ := by
  ext z
  simp only [newMark, Set.mem_setOf_eq, List.mem_singleton, Set.mem_empty_iff_false,
    iff_false, not_exists]
  rintro a ⟨ha, hp⟩
  exact absurd hx (ha ▸ hp.2.1)

/-- A dead start contributes nothing. -/
theorem newMark_single_dead {h : Heap} {B : Set Nat} {x : Nat}
    (hx : h x = none) : newMark h B [x] = ∅ := by
  ext z
  simp only [newMark, Set.mem_setOf_eq, List.mem_singleton, Set.mem_empty_iff_false,
    iff_false, not_exists]
  rintro a ⟨ha, hp⟩
  have := hp.1
  rw [ha, aliveIn, hx] at this
  simp at this

/-- `newMark` depends only on the shape of the heap. -/
theorem newMark_congr {h g : Heap} (hs : sameShape h g) (B : Set Nat)
    (xs : List Nat) : newMark h B xs = newMark g B xs := by
  have halive : ∀ id, aliveIn h id ↔ aliveIn g id := by
    intro id
    have := hs id
    unfold aliveIn
    cases hh : h id <;> cases hg : g id <;> simp [hh, hg, strip] at this ⊢
  have hedge : ∀ a b, (∃ n, h a = some n ∧ b ∈ n.children) ↔
      (∃ n, g a = some n ∧ b ∈ n.children) := by
    intro a b
    have := hs a
    cases hh : h a <;> cases hg : g a <;> simp [hh, hg, strip] at this ⊢
    · obtain ⟨_, h2⟩ := this
      rw [h2]
  have hrel : ∀ a b, relU h B a b ↔ relU g B a b := by
    intro a b
    unfold relU
    rw [hedge a b, halive b]
  ext z
  simp only [newMark, Set.mem_setOf_eq]
  constructor
  · rintro ⟨x, hx, h1, h2, h3⟩
    exact ⟨x, hx, (halive x).mp h1, h2,
      Relation.ReflTransGen.mono (fun a b => (hrel a b).mp) h3⟩
  · rintro ⟨x, hx, h1, h2, h3⟩
    exact ⟨x, hx, (halive x).mpr h1, h2,
      Relation.ReflTransGen.mono (fun a b => (hrel a b).mpr) h3⟩

/-- Path decomposition at an unmarked live start: what is reachable
from `x` is `x` itself together with what is reachable from its
children once `x` is blocked. -/
theorem newMark_single_decomp {h : Heap} {B : Set Nat} {x : Nat} {n : Node}
    (hx : h x = some n) (hxB : x ∉ B) :
    newMark h B [x] = {x} ∪ newMark h (B ∪ {x}) n.children := by
  ext z
  constructor
  · rintro ⟨a, ha, hp⟩
    have h1 := List.mem_singleton.mp ha
    subst h1
    obtain ⟨halive, _, hrtg⟩ := hp
    induction hrtg with
    | refl => exact Or.inl rfl
    | @tail b w hxb hbw ih =>
      rcases ih with h1 | h1
      · have hb : b = a := h1
        rw [hb] at hbw
        obtain ⟨_, hwB, ⟨m, hm, hchild⟩, hwAlive⟩ := hbw
        rw [hx] at hm
        cases hm
        by_cases hwa : w = a
        · exact Or.inl hwa
        · refine Or.inr ⟨w, hchild, hwAlive, ?_, Relation.ReflTransGen.refl⟩
          rintro (h2 | h2)
          · exact hwB h2
          · exact hwa h2
      · obtain ⟨ch, hch, hpath⟩ := h1
        by_cases hwa : w = a
        · exact Or.inl hwa
        · refine Or.inr ⟨ch, hch, pathUnm_trans hpath (Relation.ReflTransGen.single ?_)⟩
          have hbB : b ∉ B ∪ {a} := (pathUnm_endpoint hpath).2
          refine ⟨hbB, ?_, hbw.2.2.1, hbw.2.2.2⟩
          rintro (h2 | h2)
          · exact hbw.2.1 h2
          · exact hwa h2
  · rintro (h1 | h1)
    · rcases h1 with h1
      subst h1
      exact ⟨z, List.mem_singleton_self z, by rw [aliveIn, hx]; trivial, hxB,
        Relation.ReflTransGen.refl⟩
    · obtain ⟨ch, hch, hpath⟩ := h1
      refine ⟨x, List.mem_singleton_self x, by rw [aliveIn, hx]; trivial, hxB, ?_⟩
      have hstep : relU h B x ch := by
        refine ⟨hxB, fun h2 => hpath.2.1 (Or.inl h2), ⟨n, hx, hch⟩, hpath.1⟩
      exact Relation.ReflTransGen.head hstep
        (Relation.ReflTransGen.mono
          (fun a b => relU_mono Set.subset_union_left) hpath.2.2)

/-- Paths blocked by an already-traversed region are absorbed by it:
anything reachable outside `B` is either inside `A` (a `B`-closed set
of the form reached-from) or reachable outside `B ∪ A`. -/
theorem pathUnm_absorb {h : Heap} {B : Set Nat} {x : Nat}
    {a z : Nat} (hp : pathUnm h B a z) :
    z ∈ newMark h B [x] ∨ pathUnm h (B ∪ newMark h B [x]) a z := by
  obtain ⟨halive, haB, hrtg⟩ := hp
  induction hrtg using Relation.ReflTransGen.head_induction_on with
  | refl =>
    by_cases hA : z ∈ newMark h B [x]
    · exact Or.inl hA
    · exact Or.inr ⟨halive, fun h2 => h2.elim haB hA, Relation.ReflTransGen.refl⟩
  | @head a b hab hbz ih =>
    by_cases hA : a ∈ newMark h B [x]
    · left
      obtain ⟨x0, hx0, hpath⟩ := hA
      exact ⟨x0, hx0,
        pathUnm_trans (pathUnm_trans hpath (Relation.ReflTransGen.single hab)) hbz⟩
    · have hbAlive : aliveIn h b := hab.2.2.2
      have hbB : b ∉ B := hab.2.1
      rcases ih hbAlive hbB with h1 | h1
      · exact Or.inl h1
      · by_cases hbA : b ∈ newMark h B [x]
        · left
          obtain ⟨x0, hx0, hpath⟩ := hbA
          refine ⟨x0, hx0, pathUnm_trans hpath ?_⟩
          exact Relation.ReflTransGen.mono
            (fun p q hr => relU_mono Set.subset_union_left hr) h1.2.2
        · right
          refine ⟨halive, fun h2 => h2.elim haB hA, ?_⟩
          refine Relation.ReflTransGen.head ⟨fun h2 => h2.elim haB hA,
            fun h2 => h2.elim hbB hbA, hab.2.2.1, hbAlive⟩ h1.2.2

/-- Absorption: blocking the region already reached from `x` does not
change what a traversal of `xs` adds beyond that region. -/
theorem newMark_absorb (h : Heap) (B : Set Nat) (x : Nat) (xs : List Nat) :
    newMark h B [x] ∪ newMark h (B ∪ newMark h B [x]) xs =
      newMark h B [x] ∪ newMark h B xs := by
  apply Set.Subset.antisymm
  · apply Set.union_subset Set.subset_union_left
    exact fun z hz => Or.inr (newMark_mono_blocked Set.subset_union_left xs hz)
  · apply Set.union_subset Set.subset_union_left
    rintro z ⟨a, ha, hp⟩
    rcases pathUnm_absorb (x := x) hp with h1 | h1
    · exact Or.inl h1
    · exact Or.inr ⟨a, ha, h1⟩

/-! ## Color bookkeeping lemmas (claim C3) -/

theorem hcolor_cases (c : TraceColor) (col : HColor) :
    col = markedFor c ∨ col = HColor.grey ∨ col = unmarkedFor c := by
  cases c <;> cases col <;> simp [markedFor, unmarkedFor]

theorem markedFor_ne_grey (c : TraceColor) : markedFor c ≠ HColor.grey := by
  cases c <;> simp [markedFor]

theorem markedFor_ne_unmarkedFor (c : TraceColor) :
    markedFor c ≠ unmarkedFor c := by
  cases c <;> simp [markedFor, unmarkedFor]

theorem unmarkedFor_ne_grey (c : TraceColor) : unmarkedFor c ≠ HColor.grey := by
  cases c <;> simp [unmarkedFor]

theorem realizes_congr {h : Heap} {c : TraceColor} {V G V2 G2 : Set Nat}
    (hr : realizes h c V G) (hv : V = V2) (hg : G = G2) :
    realizes h c V2 G2 := hv ▸ hg ▸ hr

/-- Nodes outside both sets carry the unmarked color. -/
theorem realizes_unm {h : Heap} {c : TraceColor} {V G : Set Nat}
    (hr : realizes h c V G) {id : Nat} {n : Node} (hid : h id = some n)
    (hv : id ∉ V) (hg : id ∉ G) : n.color = unmarkedFor c := by
  obtain ⟨h1, h2⟩ := hr id n hid
  rcases hcolor_cases c n.color with h3 | h3 | h3
  · exact absurd (h1.mp h3) hv
  · exact absurd (h2.mp h3) hg
  · exact h3

theorem setColor_realizes_grey {h : Heap} {c : TraceColor} {V G : Set Nat}
    (hr : realizes h c V G) {x : Nat} (hxV : x ∉ V) :
    realizes (setColor h x .grey) c V (G ∪ {x}) := by
  intro id n hid
  unfold setColor at hid
  by_cases hix : id = x
  · rw [if_pos hix] at hid
    cases hx : h id with
    | none => rw [hx] at hid; simp at hid
    | some m =>
      rw [hx] at hid
      simp only [Option.map_some'] at hid
      have hid2 : ({ m with color := HColor.grey } : Node) = n :=
        Option.some.inj hid
      rw [← hid2]
      refine ⟨⟨?_, ?_⟩, ⟨?_, ?_⟩⟩
      · intro h2
        have h3 : HColor.grey = markedFor c := h2
        exact absurd h3.symm (markedFor_ne_grey c)
      · intro h2
        rw [hix] at h2
        exact absurd h2 hxV
      · intro _
        exact Or.inr (by rw [hix]; rfl)
      · intro _
        rfl
  · rw [if_neg hix] at hid
    obtain ⟨h1, h2⟩ := hr id n hid
    refine ⟨h1, ?_⟩
    rw [h2]
    constructor
    · exact fun h3 => Or.inl h3
    · rintro (h3 | h3)
      · exact h3
      · exact absurd h3 hix

theorem setColor_realizes_marked {h : Heap} {c : TraceColor} {V G : Set Nat}
    {x : Nat} (hr : realizes h c V (G ∪ {x})) (hxG : x ∉ G) :
    realizes (setColor h x (markedFor c)) c (V ∪ {x}) G := by
  intro id n hid
  unfold setColor at hid
  by_cases hix : id = x
  · rw [if_pos hix] at hid
    cases hx : h id with
    | none => rw [hx] at hid; simp at hid
    | some m =>
      rw [hx] at hid
      simp only [Option.map_some'] at hid
      have hid2 : ({ m with color := markedFor c } : Node) = n :=
        Option.some.inj hid
      rw [← hid2]
      refine ⟨⟨?_, ?_⟩, ⟨?_, ?_⟩⟩
      · intro _
        exact Or.inr (by rw [hix]; rfl)
      · intro _
        rfl
      · intro h2
        have h3 : markedFor c = HColor.grey := h2
        exact absurd h3 (markedFor_ne_grey c)
      · intro h2
        rw [hix] at h2
        exact absurd h2 hxG
  · rw [if_neg hix] at hid
    obtain ⟨h1, h2⟩ := hr id n hid
    constructor
    · rw [h1]
      constructor
      · exact fun h3 => Or.inl h3
      · rintro (h3 | h3)
        · exact h3
        · exact absurd h3 hix
    · rw [h2]
      constructor
      · rintro (h3 | h3)
        · exact h3
        · exact absurd h3 hix
      · exact fun h3 => Or.inl h3

/-! ## Counting lemmas (claim C3) -/

theorem countP_mono_of_imp {p q : Nat → Bool} :
    ∀ U : List Nat, (∀ a, p a = true → q a = true) →
      U.countP p ≤ U.countP q := by
  intro U himp
  induction U with
  | nil => simp
  | cons a as ih =>
    rw [List.countP_cons, List.countP_cons]
    by_cases hpa : p a = true
    · have hqa := himp a hpa
      simp only [hpa, hqa, if_true]
      omega
    · have hpa2 : p a = false := by simpa using hpa
      simp only [hpa2]
      by_cases hqa : q a = true <;> simp [hqa] <;> omega

theorem countP_strict_of_imp {p q : Nat → Bool} {x : Nat} :
    ∀ U : List Nat, (∀ a, p a = true → q a = true) →
      x ∈ U → q x = true → p x = false →
      U.countP p < U.countP q := by
  intro U himp
  induction U with
  | nil => intro h; simp at h
  | cons a as ih =>
    intro hmem hq hp
    rw [List.countP_cons, List.countP_cons]
    rcases List.mem_cons.mp hmem with h1 | h1
    · subst h1
      have hmono := countP_mono_of_imp as himp
      have e1 : (if p x = true then 1 else 0) = 0 := by simp [hp]
      have e2 : (if q x = true then 1 else 0) = 1 := by simp [hq]
      rw [e1, e2]
      omega
    · have hlt := ih h1 hq hp
      by_cases hpa : p a = true
      · have hqa := himp a hpa
        simp only [hpa, hqa, if_true]
        omega
      · have hpa2 : p a = false := by simpa using hpa
        simp only [hpa2]
        by_cases hqa : q a = true <;> simp [hqa] <;> omega

/-- Unmarked nodes of a more-marked heap (same shape, larger mark set,
smaller-or-equal grey budget union) are unmarked in the original. -/
theorem isUnm_imp_of_realizes {h g : Heap} {c : TraceColor}
    {V G V2 G2 : Set Nat} (hsh : sameShape h g)
    (hr : realizes h c V G) (hr2 : realizes g c V2 G2)
    (hsub : V ∪ G ⊆ V2 ∪ G2) :
    ∀ id, isUnm g c id = true → isUnm h c id = true := by
  intro id hu
  unfold isUnm at hu ⊢
  cases hg : g id with
  | none => rw [hg] at hu; simp at hu
  | some m =>
    rw [hg] at hu
    simp at hu
    cases hh : h id with
    | none =>
      have := hsh id
      rw [hg, hh] at this
      simp at this
    | some n =>
      simp only [beq_iff_eq]
      obtain ⟨h1, h2⟩ := hr2 id m hg
      have hid2 : id ∉ V2 := fun hx => absurd (h1.mpr hx)
        (by rw [hu]; exact (markedFor_ne_unmarkedFor c).symm)
      have hid3 : id ∉ G2 := fun hx => absurd (h2.mpr hx)
        (by rw [hu]; exact (unmarkedFor_ne_grey c))
      have hid4 : id ∉ V ∪ G := fun hx => (hsub hx).elim hid2 hid3
      exact realizes_unm hr hh (fun hx => hid4 (Or.inl hx))
        (fun hx => hid4 (Or.inr hx))

theorem sameShape_alive {h g : Heap} (hs : sameShape h g) :
    ∀ id, aliveIn g id ↔ aliveIn h id := by
  intro id
  have := hs id
  unfold aliveIn
  cases hh : h id <;> cases hg : g id <;> simp [hh, hg, strip] at this ⊢

/-! ## The marking theorem (claim C3): a completed traversal marks
exactly the nodes newly reachable through unmarked ones. -/

/-- Fold form, assuming the single-node form at the same fuel. -/
theorem traceList_marks (c : TraceColor) (fuel : Nat)
    (main : ∀ (h : Heap) (x : Nat) (V G : Set Nat) (U : List Nat),
      realizes h c V G → (∀ id, aliveIn h id → id ∈ U) →
      countUnm h c U < fuel →
      realizes (traceNode c fuel h x) c (V ∪ newMark h (V ∪ G) [x]) G) :
    ∀ (xs : List Nat) (h : Heap) (V G : Set Nat) (U : List Nat),
      realizes h c V G → (∀ id, aliveIn h id → id ∈ U) →
      countUnm h c U < fuel →
      realizes (xs.foldl (traceNode c fuel) h) c
        (V ∪ newMark h (V ∪ G) xs) G := by
  intro xs
  induction xs with
  | nil =>
    intro h V G U hr _ _
    rw [newMark_nil, Set.union_empty]
    exact hr
  | cons x xs ih =>
    intro h V G U hr halive hcount
    have h1 := main h x V G U hr halive hcount
    have hsh : sameShape h (traceNode c fuel h x) := sameShape_traceNode c fuel h x
    have halive2 : ∀ id, aliveIn (traceNode c fuel h x) id → id ∈ U :=
      fun id hal => halive id ((sameShape_alive hsh id).mp hal)
    have hsubVG : V ∪ G ⊆ (V ∪ newMark h (V ∪ G) [x]) ∪ G := by
      rintro z (hz | hz)
      · exact Or.inl (Or.inl hz)
      · exact Or.inr hz
    have hcount2 : countUnm (traceNode c fuel h x) c U < fuel :=
      Nat.lt_of_le_of_lt
        (countP_mono_of_imp U (isUnm_imp_of_realizes hsh hr h1 hsubVG)) hcount
    have h2 := ih (traceNode c fuel h x) (V ∪ newMark h (V ∪ G) [x]) G U
      h1 halive2 hcount2
    have e2 : (V ∪ newMark h (V ∪ G) [x]) ∪
        newMark (traceNode c fuel h x)
          ((V ∪ newMark h (V ∪ G) [x]) ∪ G) xs
        = V ∪ newMark h (V ∪ G) (x :: xs) := by
      rw [← newMark_congr hsh ((V ∪ newMark h (V ∪ G) [x]) ∪ G) xs]
      have eB : (V ∪ newMark h (V ∪ G) [x]) ∪ G =
          (V ∪ G) ∪ newMark h (V ∪ G) [x] := by
        ext z
        simp only [Set.mem_union]
        tauto
      rw [eB, Set.union_assoc, newMark_absorb h (V ∪ G) x xs,
        newMark_cons h (V ∪ G) x xs]
    rw [List.foldl_cons]
    exact realizes_congr h2 e2 rfl

/-- `trace_impl` characterized: from a heap realizing `(V, G)` with
enough fuel, the traversal from `x` ends in a heap realizing
`(V ∪ newMark (V ∪ G) [x], G)`: exactly the nodes reachable from `x`
through unmarked nodes acquire the mark color. -/
theorem traceNode_marks (c : TraceColor) :
    ∀ (fuel : Nat) (h : Heap) (x : Nat) (V G : Set Nat) (U : List Nat),
      realizes h c V G → (∀ id, aliveIn h id → id ∈ U) →
      countUnm h c U < fuel →
      realizes (traceNode c fuel h x) c (V ∪ newMark h (V ∪ G) [x]) G := by
  intro fuel
  induction fuel with
  | zero =>
    intro h x V G U _ _ hcount
    exact absurd hcount (Nat.not_lt_zero _)
  | succ fuel ih =>
    intro h x V G U hr halive hcount
    unfold traceNode
    cases hx : h x with
    | none =>
      rw [newMark_single_dead hx, Set.union_empty]
      exact hr
    | some n =>
      by_cases hc : n.color = unmarkedFor c
      · have hxV : x ∉ V := by
          intro hmem
          have hh := (hr x n hx).1.mpr hmem
          rw [hc] at hh
          exact (markedFor_ne_unmarkedFor c) hh.symm
        have hxG : x ∉ G := by
          intro hmem
          have hh := (hr x n hx).2.mpr hmem
          rw [hc] at hh
          exact (unmarkedFor_ne_grey c) hh
        have hr1 : realizes (setColor h x .grey) c V (G ∪ {x}) :=
          setColor_realizes_grey hr hxV
        have hsh1 : sameShape h (setColor h x .grey) := sameShape_setColor h x .grey
        have halive1 : ∀ id, aliveIn (setColor h x .grey) id → id ∈ U :=
          fun id hal => halive id ((sameShape_alive hsh1 id).mp hal)
        have hsub1 : V ∪ G ⊆ V ∪ (G ∪ {x}) := by
          rintro z (hz | hz)
          · exact Or.inl hz
          · exact Or.inr (Or.inl hz)
        have hcount1 : countUnm (setColor h x .grey) c U < fuel := by
          have hxU : x ∈ U := halive x (by rw [aliveIn, hx]; trivial)
          have hqx : isUnm h c x = true := by
            unfold isUnm
            rw [hx]
            simpa using hc
          have hpx : isUnm (setColor h x .grey) c x = false := by
            unfold isUnm setColor
            rw [if_pos rfl, hx]
            simpa using (Ne.symm (unmarkedFor_ne_grey c))
          have hstrict := countP_strict_of_imp U
            (isUnm_imp_of_realizes hsh1 hr hr1 hsub1) hxU hqx hpx
          exact Nat.lt_of_lt_of_le hstrict (Nat.le_of_lt_succ hcount)
        have hfold := traceList_marks c fuel ih n.children (setColor h x .grey)
          V (G ∪ {x}) U hr1 halive1 hcount1
        have hmarked := setColor_realizes_marked hfold hxG
        have e3 : (V ∪ newMark (setColor h x .grey) (V ∪ (G ∪ {x}))
            n.children) ∪ {x} = V ∪ newMark h (V ∪ G) [x] := by
          rw [← newMark_congr hsh1 (V ∪ (G ∪ {x})) n.children]
          rw [newMark_single_decomp hx
            (show x ∉ V ∪ G from fun hm => hm.elim hxV hxG)]
          have eB : V ∪ (G ∪ {x}) = (V ∪ G) ∪ {x} := (Set.union_assoc V G {x}).symm
          rw [eB]
          ext z
          simp only [Set.mem_union]
          tauto
        change realizes
          (if n.color = unmarkedFor c then
            setColor (List.foldl (traceNode c fuel) (setColor h x HColor.grey)
              n.children) x (markedFor c)
          else h) c (V ∪ newMark h (V ∪ G) [x]) G
        rw [if_pos hc]
        exact realizes_congr hmarked e3 rfl
      · have hxVG : x ∈ V ∪ G := by
          rcases hcolor_cases c n.color with h3 | h3 | h3
          · exact Or.inl ((hr x n hx).1.mp h3)
          · exact Or.inr ((hr x n hx).2.mp h3)
          · exact absurd h3 hc
        change realizes
          (if n.color = unmarkedFor c then
            setColor (List.foldl (traceNode c fuel) (setColor h x HColor.grey)
              n.children) x (markedFor c)
          else h) c (V ∪ newMark h (V ∪ G) [x]) G
        rw [if_neg hc, newMark_single_blocked hxVG, Set.union_empty]
        exact hr

/-! ## The root loop of the mark phase (claim C3) -/

theorem rootedB_congr {h g : Heap} (hs : sameShape h g) (p : Nat) :
    rootedB g p = rootedB h p := by
  unfold rootedB
  have := hs p
  cases hh : h p <;> cases hg : g p <;> simp [hh, hg, strip] at this ⊢
  · obtain ⟨h1, _⟩ := this
    rw [h1]

theorem markRootsStep_eq (c : TraceColor) (fuel : Nat) (h : Heap) (p : Nat) :
    markRootsStep c fuel h p =
      (if rootedB h p = true then traceNode c fuel h p else h) := by
  unfold markRootsStep rootedB
  cases hh : h p with
  | none => simp
  | some n =>
    by_cases hro : 0 < n.roots
    · simp [hro]
    · simp [hro]

theorem markRoots_foldl_eq (c : TraceColor) (fuel : Nat) :
    ∀ (R : List Nat) (h : Heap),
      R.foldl (markRootsStep c fuel) h =
        (R.filter (fun p => rootedB h p)).foldl (traceNode c fuel) h := by
  intro R
  induction R with
  | nil => intro h; rfl
  | cons p R ih =>
    intro h
    rw [List.foldl_cons, markRootsStep_eq]
    by_cases hro : rootedB h p = true
    · rw [if_pos hro, List.filter_cons_of_pos (by simpa using hro), List.foldl_cons]
      rw [ih (traceNode c fuel h p)]
      congr 1
      exact List.filter_congr
        (fun a _ => rootedB_congr (sameShape_traceNode c fuel h p) a)
    · rw [if_neg hro, List.filter_cons_of_neg (by simpa using hro)]
      exact ih h

/-! ## The ephemeron loop of the mark phase (claim C3) -/

theorem hIsReachable_iff (col : HColor) (c : TraceColor) :
    hIsReachable col c = true ↔ (col = markedFor c ∨ col = HColor.grey) := by
  cases c <;> cases col <;> simp [hIsReachable, markedFor]

/-- Under a grey-free realization, ephemeron reachability is: active
with a live key inside the marked set. -/
theorem ephReachable_iff {h : Heap} {c : TraceColor} {M : Set Nat}
    (hr : realizes h c M ∅) {eh : EphHeap} {a : Nat} {en : EphNode}
    (hea : eh a = some en) :
    ephReachable h eh a c = true ↔
      (en.active = true ∧ aliveIn h en.key ∧ en.key ∈ M) := by
  have hred : ephReachable h eh a c = (en.active &&
      (match h en.key with
        | some kn => hIsReachable kn.color c
        | none => false)) := by
    unfold ephReachable
    rw [hea]
  rw [hred]
  cases hk : h en.key with
  | none =>
    simp [aliveIn, hk]
  | some kn =>
    have hkk := hr en.key kn hk
    have hmatch : (match some kn with
        | some kn => hIsReachable kn.color c
        | none => false) = hIsReachable kn.color c := rfl
    rw [hmatch]
    simp only [Bool.and_eq_true]
    constructor
    · rintro ⟨ha, hcolor⟩
      rcases (hIsReachable_iff kn.color c).mp hcolor with h1 | h1
      · exact ⟨ha, by rw [aliveIn, hk]; trivial, hkk.1.mp h1⟩
      · exact absurd (hkk.2.mp h1) (Set.not_mem_empty en.key)
    · rintro ⟨ha, _, hM⟩
      exact ⟨ha, (hIsReachable_iff kn.color c).mpr (Or.inl (hkk.1.mpr hM))⟩

/-- Tracing a node that does not carry the unmarked color is a no-op. -/
theorem traceNode_of_not_unm {h : Heap} {c : TraceColor} {x : Nat}
    (hx : ∀ n, h x = some n → n.color ≠ unmarkedFor c) (fuel : Nat) :
    traceNode c fuel h x = h := by
  cases fuel with
  | zero => rfl
  | succ fuel =>
    unfold traceNode
    cases hh : h x with
    | none => rfl
    | some n =>
      change (if n.color = unmarkedFor c then
        setColor (List.foldl (traceNode c fuel) (setColor h x HColor.grey)
          n.children) x (markedFor c) else h) = h
      rw [if_neg (hx n hh)]

theorem setValColor_eq (eh : EphHeap) (a : Nat) (col : HColor) (x : Nat) :
    setValColor eh a col x =
      if x = a then (eh x).map (fun en => { en with valColor := col }) else eh x := by
  rfl

/-- Empty ephemeron spec step when the node is missing. -/
theorem ephStepSpec_none {h : Heap} {c : TraceColor} {eh : EphHeap}
    {a : Nat} (he : eh a = none) (M : Set Nat) :
    ephStepSpec h c eh M a = M := by
  unfold ephStepSpec
  have : {z | ∃ en, eh a = some en ∧ en.active = true ∧ aliveIn h en.key ∧
      en.key ∈ M ∧ en.valColor = unmarkedFor c ∧
      z ∈ newMark h M en.valChildren} = (∅ : Set Nat) := by
    ext z
    simp [he]
  rw [this, Set.union_empty]

/-- Empty ephemeron spec step when the fire condition fails. -/
theorem ephStepSpec_nofire {h : Heap} {c : TraceColor} {eh : EphHeap}
    {a : Nat} {en : EphNode} (he : eh a = some en)
    (hnf : ¬ (en.active = true ∧ aliveIn h en.key ∧ en.key ∈ M ∧
      en.valColor = unmarkedFor c)) :
    ephStepSpec h c eh M a = M := by
  unfold ephStepSpec
  have : {z | ∃ en2, eh a = some en2 ∧ en2.active = true ∧ aliveIn h en2.key ∧
      en2.key ∈ M ∧ en2.valColor = unmarkedFor c ∧
      z ∈ newMark h M en2.valChildren} = (∅ : Set Nat) := by
    ext z
    simp only [he, Set.mem_setOf_eq, Set.mem_empty_iff_false, iff_false]
    rintro ⟨en2, he2, h1, h2, h3, h4, _⟩
    cases Option.some.inj he2
    exact hnf ⟨h1, h2, h3, h4⟩
  rw [this, Set.union_empty]

/-- The ephemeron spec step on a firing node adds the value closure. -/
theorem ephStepSpec_fire {h : Heap} {c : TraceColor} {eh : EphHeap}
    {a : Nat} {en : EphNode} (he : eh a = some en)
    (h1 : en.active = true) (h2 : aliveIn h en.key) (h3 : en.key ∈ M)
    (h4 : en.valColor = unmarkedFor c) :
    ephStepSpec h c eh M a = M ∪ newMark h M en.valChildren := by
  unfold ephStepSpec
  congr 1
  ext z
  simp only [he, Set.mem_setOf_eq]
  constructor
  · rintro ⟨en2, he2, _, _, _, _, hz⟩
    cases Option.some.inj he2
    exact hz
  · intro hz
    exact ⟨en, rfl, h1, h2, h3, h4, hz⟩

theorem traceEph_eq {eh : EphHeap} {a : Nat} {en : EphNode}
    (hea : eh a = some en) (c : TraceColor) (fuel : Nat) (h : Heap) :
    traceEph c fuel h eh a =
      (if en.valColor = unmarkedFor c then
        (en.valChildren.foldl (traceNode c fuel) (traceNode c fuel h en.key),
         setValColor (setValColor eh a .grey) a (markedFor c))
      else (traceNode c fuel h en.key, eh)) := by
  unfold traceEph
  rw [hea]

theorem ephReachable_none {h : Heap} {eh : EphHeap} {a : Nat}
    (hea : eh a = none) (c : TraceColor) : ephReachable h eh a c = false := by
  unfold ephReachable
  rw [hea]

/-- The ephemeron loop of `run_mark_phase`, characterized against the
initial heap and ephemeron store: the heap ends up realizing the spec
fold of the marked set; ephemeron records keep their domain, flags,
keys and children; untouched entries are unchanged; and an entry whose
spec fire condition holds at its queue position ends with its inline
value marked. -/
theorem ephLoop_marks (c : TraceColor) (fuel : Nat) (h0 : Heap) (eh0 : EphHeap) :
    ∀ (E : List Nat) (h : Heap) (eh : EphHeap) (M : Set Nat) (U : List Nat),
      E.Nodup →
      sameShape h0 h →
      realizes h c M ∅ →
      (∀ id, aliveIn h0 id → id ∈ U) →
      countUnm h c U < fuel →
      (∀ e ∈ E, eh e = eh0 e) →
      ehMatches eh0 eh →
      ∀ r, r = E.foldl (fun (he : Heap × EphHeap) e =>
          if ephReachable he.1 he.2 e c then traceEph c fuel he.1 he.2 e else he)
          (h, eh) →
        sameShape h0 r.1 ∧
        realizes r.1 c (ephFoldSpec h0 c eh0 E M) ∅ ∧
        ehMatches eh0 r.2 ∧
        (∀ x, x ∉ E → r.2 x = eh x) ∧
        (∀ (E1 : List Nat) (e : Nat) (E2 : List Nat), E = E1 ++ e :: E2 →
          (∃ en0, eh0 e = some en0 ∧ en0.active = true ∧ aliveIn h0 en0.key ∧
            en0.key ∈ ephFoldSpec h0 c eh0 E1 M ∧ en0.valColor = unmarkedFor c) →
          ∃ en0, eh0 e = some en0 ∧
            r.2 e = some { en0 with valColor := markedFor c }) := by
  intro E
  induction E with
  | nil =>
    intro h eh M U _ hshape hr _ _ _ hmatches r hrdef
    subst hrdef
    refine ⟨hshape, hr, hmatches, fun x _ => rfl, ?_⟩
    intro E1 e E2 heq _
    exact absurd heq (List.append_ne_nil_of_right_ne_nil E1 (List.cons_ne_nil e E2)).symm
  | cons a E' ih =>
    intro h eh M U hnodup hshape hr haliveU hcount hehE hmatches r hrdef
    have hanotE : a ∉ E' := (List.nodup_cons.mp hnodup).1
    have hnodup2 : E'.Nodup := (List.nodup_cons.mp hnodup).2
    have hehE2 : ∀ e ∈ E', eh e = eh0 e :=
      fun e he => hehE e (List.mem_cons_of_mem a he)
    have heha : eh a = eh0 a := hehE a (List.mem_cons_self a E')
    have haliveh : ∀ id, aliveIn h id → id ∈ U :=
      fun id hal => haliveU id ((sameShape_alive hshape id).mp hal)
    rw [List.foldl_cons] at hrdef
    cases hea : eh a with
    | none =>
      have heq0 : eh0 a = none := by rw [← heha, hea]
      have hnf : ephReachable h eh a c = false := ephReachable_none hea c
      rw [hnf] at hrdef
      simp only [Bool.false_eq_true, if_false] at hrdef
      have hspec : ephStepSpec h0 c eh0 M a = M := ephStepSpec_none heq0 M
      have hfold : ephFoldSpec h0 c eh0 (a :: E') M = ephFoldSpec h0 c eh0 E' M := by
        unfold ephFoldSpec
        rw [List.foldl_cons, hspec]
      obtain ⟨c1, c2, c3, c4, c5⟩ := ih h eh M U hnodup2 hshape hr haliveU hcount
        hehE2 hmatches r hrdef
      refine ⟨c1, by rw [hfold]; exact c2, c3, ?_, ?_⟩
      · intro x hx
        exact c4 x (fun hmem => hx (List.mem_cons_of_mem a hmem))
      · intro E1 e E2 heq hprem
        cases E1 with
        | nil =>
          simp only [List.nil_append] at heq
          obtain ⟨rfl, rfl⟩ := List.cons.inj heq
          obtain ⟨en0, hen0, _⟩ := hprem
          rw [heq0] at hen0
          cases hen0
        | cons b E1' =>
          obtain ⟨rfl, heq2⟩ := List.cons.inj heq
          refine c5 E1' e E2 heq2 ?_
          obtain ⟨en0, hen0, hact, halk, hkey, hval⟩ := hprem
          refine ⟨en0, hen0, hact, halk, ?_, hval⟩
          have : ephFoldSpec h0 c eh0 (a :: E1') M =
              ephFoldSpec h0 c eh0 E1' M := by
            unfold ephFoldSpec
            rw [List.foldl_cons, hspec]
          rw [this] at hkey
          exact hkey
    | some en =>
      have heq0 : eh0 a = some en := by rw [← heha, hea]
      by_cases hfire : ephReachable h eh a c = true
      · obtain ⟨hact, halivek, hkeyM⟩ := (ephReachable_iff hr hea).mp hfire
        have halivek0 : aliveIn h0 en.key := (sameShape_alive hshape en.key).mp halivek
        have hkeynoop : traceNode c fuel h en.key = h := by
          refine traceNode_of_not_unm ?_ fuel
          intro kn hkn hunm
          have := (hr en.key kn hkn).1.mpr hkeyM
          rw [hunm] at this
          exact (markedFor_ne_unmarkedFor c) this.symm
        rw [hfire] at hrdef
        simp only [if_true] at hrdef
        rw [traceEph_eq hea c fuel h] at hrdef
        by_cases hval : en.valColor = unmarkedFor c
        · rw [if_pos hval, hkeynoop] at hrdef
          have hspec : ephStepSpec h0 c eh0 M a =
              M ∪ newMark h0 M en.valChildren :=
            ephStepSpec_fire heq0 hact halivek0 hkeyM hval
          have hfold2 := traceList_marks c fuel (traceNode_marks c fuel)
            en.valChildren h M ∅ U hr haliveh hcount
          have hseteq : M ∪ newMark h (M ∪ ∅) en.valChildren =
              M ∪ newMark h0 M en.valChildren := by
            rw [Set.union_empty, newMark_congr hshape M en.valChildren]
          have hr2 : realizes (en.valChildren.foldl (traceNode c fuel) h) c
              (M ∪ newMark h0 M en.valChildren) ∅ :=
            realizes_congr hfold2 hseteq rfl
          have hshape2 : sameShape h0 (en.valChildren.foldl (traceNode c fuel) h) :=
            sameShape_trans hshape (sameShape_traceList c fuel en.valChildren h)
          have hsub : M ∪ ∅ ⊆ (M ∪ newMark h0 M en.valChildren) ∪ ∅ := by
            rintro z (hz | hz)
            · exact Or.inl (Or.inl hz)
            · exact absurd hz (Set.not_mem_empty z)
          have hcount2 : countUnm (en.valChildren.foldl (traceNode c fuel) h) c U < fuel :=
            Nat.lt_of_le_of_lt
              (countP_mono_of_imp U (isUnm_imp_of_realizes
                (sameShape_traceList c fuel en.valChildren h) hr hr2 hsub)) hcount
          have heh2a : (setValColor (setValColor eh a .grey) a (markedFor c)) a =
              some { en with valColor := markedFor c } := by
            rw [setValColor_eq, if_pos rfl, setValColor_eq, if_pos rfl, hea]
            rfl
          have heh2x : ∀ x, x ≠ a →
              (setValColor (setValColor eh a .grey) a (markedFor c)) x = eh x := by
            intro x hx
            rw [setValColor_eq, if_neg hx, setValColor_eq, if_neg hx]
          have hehE3 : ∀ e ∈ E',
              (setValColor (setValColor eh a .grey) a (markedFor c)) e = eh0 e := by
            intro e he
            have hne : e ≠ a := fun hh => hanotE (hh ▸ he)
            rw [heh2x e hne]
            exact hehE2 e he
          have hmatches2 : ehMatches eh0
              (setValColor (setValColor eh a .grey) a (markedFor c)) := by
            intro x
            by_cases hx : x = a
            · subst hx
              exact Or.inr ⟨en, markedFor c, heq0, heh2a⟩
            · rw [heh2x x hx]
              exact hmatches x
          obtain ⟨c1, c2, c3, c4, c5⟩ := ih
            (en.valChildren.foldl (traceNode c fuel) h)
            (setValColor (setValColor eh a .grey) a (markedFor c))
            (M ∪ newMark h0 M en.valChildren) U hnodup2 hshape2 hr2 haliveU
            hcount2 hehE3 hmatches2 r hrdef
          have hfoldeq : ephFoldSpec h0 c eh0 (a :: E') M =
              ephFoldSpec h0 c eh0 E' (M ∪ newMark h0 M en.valChildren) := by
            unfold ephFoldSpec
            rw [List.foldl_cons, hspec]
          refine ⟨c1, by rw [hfoldeq]; exact c2, c3, ?_, ?_⟩
          · intro x hx
            have hne : x ≠ a := fun hh => hx (hh ▸ List.mem_cons_self a E')
            rw [c4 x (fun hmem => hx (List.mem_cons_of_mem a hmem))]
            exact heh2x x hne
          · intro E1 e E2 heq hprem
            cases E1 with
            | nil =>
              simp only [List.nil_append] at heq
              obtain ⟨rfl, rfl⟩ := List.cons.inj heq
              refine ⟨en, heq0, ?_⟩
              rw [c4 a hanotE]
              exact heh2a
            | cons b E1' =>
              obtain ⟨rfl, heq2⟩ := List.cons.inj heq
              refine c5 E1' e E2 heq2 ?_
              obtain ⟨en0, hen0, hact2, halk2, hkey2, hval2⟩ := hprem
              refine ⟨en0, hen0, hact2, halk2, ?_, hval2⟩
              have : ephFoldSpec h0 c eh0 (a :: E1') M =
                  ephFoldSpec h0 c eh0 E1' (M ∪ newMark h0 M en.valChildren) := by
                unfold ephFoldSpec
                rw [List.foldl_cons, hspec]
              rw [this] at hkey2
              exact hkey2
        · rw [if_neg hval, hkeynoop] at hrdef
          have hspec : ephStepSpec h0 c eh0 M a = M := by
            refine ephStepSpec_nofire heq0 ?_
            rintro ⟨_, _, _, h4⟩
            exact hval h4
          have hfold : ephFoldSpec h0 c eh0 (a :: E') M =
              ephFoldSpec h0 c eh0 E' M := by
            unfold ephFoldSpec
            rw [List.foldl_cons, hspec]
          obtain ⟨c1, c2, c3, c4, c5⟩ := ih h eh M U hnodup2 hshape hr haliveU
            hcount hehE2 hmatches r hrdef
          refine ⟨c1, by rw [hfold]; exact c2, c3, ?_, ?_⟩
          · intro x hx
            exact c4 x (fun hmem => hx (List.mem_cons_of_mem a hmem))
          · intro E1 e E2 heq hprem
            cases E1 with
            | nil =>
              simp only [List.nil_append] at heq
              obtain ⟨rfl, rfl⟩ := List.cons.inj heq
              obtain ⟨en0, hen0, _, _, _, hval2⟩ := hprem
              rw [heq0] at hen0
              cases Option.some.inj hen0
              exact absurd hval2 hval
            | cons b E1' =>
              obtain ⟨rfl, heq2⟩ := List.cons.inj heq
              refine c5 E1' e E2 heq2 ?_
              obtain ⟨en0, hen0, hact2, halk2, hkey2, hval2⟩ := hprem
              refine ⟨en0, hen0, hact2, halk2, ?_, hval2⟩
              have : ephFoldSpec h0 c eh0 (a :: E1') M =
                  ephFoldSpec h0 c eh0 E1' M := by
                unfold ephFoldSpec
                rw [List.foldl_cons, hspec]
              rw [this] at hkey2
              exact hkey2
      · have hnf : ephReachable h eh a c = false := by
          simpa using hfire
        rw [hnf] at hrdef
        simp only [Bool.false_eq_true, if_false] at hrdef
        have hspec : ephStepSpec h0 c eh0 M a = M := by
          refine ephStepSpec_nofire heq0 ?_
          rintro ⟨h1, h2, h3, _⟩
          refine hfire ((ephReachable_iff hr hea).mpr ⟨h1, ?_, h3⟩)
          exact (sameShape_alive hshape en.key).mpr h2
        have hfold : ephFoldSpec h0 c eh0 (a :: E') M =
            ephFoldSpec h0 c eh0 E' M := by
          unfold ephFoldSpec
          rw [List.foldl_cons, hspec]
        obtain ⟨c1, c2, c3, c4, c5⟩ := ih h eh M U hnodup2 hshape hr haliveU
          hcount hehE2 hmatches r hrdef
        refine ⟨c1, by rw [hfold]; exact c2, c3, ?_, ?_⟩
        · intro x hx
          exact c4 x (fun hmem => hx (List.mem_cons_of_mem a hmem))
        · intro E1 e E2 heq hprem
          cases E1 with
          | nil =>
            simp only [List.nil_append] at heq
            obtain ⟨rfl, rfl⟩ := List.cons.inj heq
            obtain ⟨en0, hen0, h1, h2, h3, _⟩ := hprem
            rw [heq0] at hen0
            cases Option.some.inj hen0
            refine absurd ((ephReachable_iff hr hea).mpr
              ⟨h1, (sameShape_alive hshape en.key).mpr h2, h3⟩) hfire
          | cons b E1' =>
            obtain ⟨rfl, heq2⟩ := List.cons.inj heq
            refine c5 E1' e E2 heq2 ?_
            obtain ⟨en0, hen0, hact2, halk2, hkey2, hval2⟩ := hprem
            refine ⟨en0, hen0, hact2, halk2, ?_, hval2⟩
            have : ephFoldSpec h0 c eh0 (a :: E1') M =
                ephFoldSpec h0 c eh0 E1' M := by
              unfold ephFoldSpec
              rw [List.foldl_cons, hspec]
            rw [this] at hkey2
            exact hkey2

/-! ## Spec-level lemmas for the steady-state theorem (claim C3) -/

theorem markedFor_flip (c : TraceColor) : markedFor c.flip = unmarkedFor c := by
  cases c <;> rfl

theorem unmarkedFor_flip (c : TraceColor) : unmarkedFor c.flip = markedFor c := by
  cases c <;> rfl

/-- Extract a node of the same shape through a strip equality. -/
theorem strip_eq_extract {g h : Heap} {b : Nat} {n : Node}
    (he : (g b).map strip = (h b).map strip) (hb : h b = some n) :
    ∃ nb, g b = some nb ∧ nb.roots = n.roots ∧ nb.children = n.children := by
  rw [hb] at he
  cases hg : g b with
  | none => rw [hg] at he; exact Option.noConfusion he
  | some nb =>
    rw [hg] at he
    have h2 : strip nb = strip n := Option.some.inj he
    exact ⟨nb, rfl, congrArg Prod.fst h2, congrArg Prod.snd h2⟩

theorem ephStepSpec_grow (h : Heap) (c : TraceColor) (eh : EphHeap)
    (M : Set Nat) (e : Nat) : M ⊆ ephStepSpec h c eh M e :=
  fun _ hz => Or.inl hz

theorem ephFoldSpec_grow (h : Heap) (c : TraceColor) (eh : EphHeap) :
    ∀ (E : List Nat) (M : Set Nat), M ⊆ ephFoldSpec h c eh E M := by
  intro E
  induction E with
  | nil => intro M; exact fun _ hz => hz
  | cons a E ih =>
    intro M
    exact fun z hz => ih (ephStepSpec h c eh M a) (ephStepSpec_grow h c eh M a hz)

theorem ephFoldSpec_append (h : Heap) (c : TraceColor) (eh : EphHeap)
    (E1 E2 : List Nat) (M : Set Nat) :
    ephFoldSpec h c eh (E1 ++ E2) M =
      ephFoldSpec h c eh E2 (ephFoldSpec h c eh E1 M) := by
  unfold ephFoldSpec
  rw [List.foldl_append]

theorem newMark_alive {h : Heap} {B : Set Nat} {xs : List Nat} :
    ∀ z ∈ newMark h B xs, aliveIn h z :=
  fun z hz => (newMark_subset_compl z hz).1

theorem ephStepSpec_alive {h : Heap} {c : TraceColor} {eh : EphHeap}
    {M : Set Nat} {e : Nat} (hM : ∀ z ∈ M, aliveIn h z) :
    ∀ z ∈ ephStepSpec h c eh M e, aliveIn h z := by
  rintro z (hz | ⟨_, _, _, _, _, _, hz⟩)
  · exact hM z hz
  · exact newMark_alive z hz

theorem ephFoldSpec_alive {h : Heap} {c : TraceColor} {eh : EphHeap} :
    ∀ {E : List Nat} {M : Set Nat}, (∀ z ∈ M, aliveIn h z) →
      ∀ z ∈ ephFoldSpec h c eh E M, aliveIn h z := by
  intro E
  induction E with
  | nil => intro M hM; exact hM
  | cons a E ih =>
    intro M hM
    exact ih (ephStepSpec_alive hM)

/-- Two ephemeron stores related by `ehMatches` give the same
reachability verdicts: the value color is not consulted. -/
theorem ephReachable_ehMatches {eh0 eh : EphHeap} (hm : ehMatches eh0 eh)
    (h : Heap) (e : Nat) (c : TraceColor) :
    ephReachable h eh e c = ephReachable h eh0 e c := by
  unfold ephReachable
  rcases hm e with ⟨h1, h2⟩ | ⟨en0, cv, h1, h2⟩
  · rw [h1, h2]
  · rw [h1, h2]

theorem childClosed_empty (g : Heap) : childClosed g ∅ :=
  fun a ha => absurd ha (Set.not_mem_empty a)

/-- Extending a child-closed set by the nodes newly reachable outside
it keeps it child-closed. -/
theorem childClosed_union_newMark {g : Heap} {S : Set Nat}
    (hcl : childClosed g S) (xs : List Nat) :
    childClosed g (S ∪ newMark g S xs) := by
  rintro a (haS | ⟨x, hx, hp⟩) n hgn b hb hbal
  · exact Or.inl (hcl a haS n hgn b hb hbal)
  · by_cases hbS : b ∈ S
    · exact Or.inl hbS
    · refine Or.inr ⟨x, hx, pathUnm_trans hp (Relation.ReflTransGen.single ?_)⟩
      exact ⟨(pathUnm_endpoint hp).2, hbS, ⟨n, hgn, hb⟩, hbal⟩

theorem childClosed_ephStepSpec {g : Heap} {c : TraceColor} {eh : EphHeap}
    {S : Set Nat} (hcl : childClosed g S) (e : Nat) :
    childClosed g (ephStepSpec g c eh S e) := by
  cases he : eh e with
  | none => rw [ephStepSpec_none he]; exact hcl
  | some en =>
    by_cases hf : en.active = true ∧ aliveIn g en.key ∧ en.key ∈ S ∧
        en.valColor = unmarkedFor c
    · rw [ephStepSpec_fire he hf.1 hf.2.1 hf.2.2.1 hf.2.2.2]
      exact childClosed_union_newMark hcl en.valChildren
    · rw [ephStepSpec_nofire he hf]
      exact hcl

theorem childClosed_ephFoldSpec {g : Heap} {c : TraceColor} {eh : EphHeap} :
    ∀ {E : List Nat} {S : Set Nat}, childClosed g S →
      childClosed g (ephFoldSpec g c eh E S) := by
  intro E
  induction E with
  | nil => intro S hcl; exact hcl
  | cons a E ih =>
    intro S hcl
    exact ih (childClosed_ephStepSpec hcl a)

/-- Transfer of a traversal closure to a second heap of the same shape
on the relevant nodes: every node the first traversal reaches from
starts `xs` outside blocked set `B` is, in the second heap, either in
the larger blocked set `B2` (which is child-closed) or reachable there
from the starts `xs2` outside `B2`. -/
theorem newMark_transfer {h g : Heap} {B B2 : Set Nat} {xs xs2 : List Nat}
    (hBB : B ⊆ B2) (hcl : childClosed g B2)
    (hsa : ∀ w ∈ newMark h B xs, (g w).map strip = (h w).map strip ∧ aliveIn g w)
    (hxs : ∀ x ∈ xs, x ∈ xs2) :
    newMark h B xs ⊆ B2 ∪ newMark g B2 xs2 := by
  rintro z ⟨x, hx, hax, hxB, hpath⟩
  rw [Set.mem_union]
  have key : ∀ w, Relation.ReflTransGen (relU h B) x w → w ∈ newMark h B xs :=
    fun w hw => ⟨x, hx, hax, hxB, hw⟩
  induction hpath with
  | refl =>
    by_cases hxB2 : x ∈ B2
    · exact Or.inl hxB2
    · exact Or.inr ⟨x, hxs x hx,
        (hsa x (key x Relation.ReflTransGen.refl)).2, hxB2,
        Relation.ReflTransGen.refl⟩
  | tail hp hr ih =>
    rename_i b w
    obtain ⟨hbB, hwB, ⟨n, hbn, hwch⟩, hwal⟩ := hr
    have hbNew : b ∈ newMark h B xs := key b hp
    have hwNew : w ∈ newMark h B xs := key w (hp.tail ⟨hbB, hwB, ⟨n, hbn, hwch⟩, hwal⟩)
    obtain ⟨nb, hgnb, _, hch⟩ := strip_eq_extract (hsa b hbNew).1 hbn
    have hwg : aliveIn g w := (hsa w hwNew).2
    have hwchg : w ∈ nb.children := by rw [hch]; exact hwch
    cases ih with
    | inl hbB2 => exact Or.inl (hcl b hbB2 nb hgnb w hwchg hwg)
    | inr hbNew2 =>
      obtain ⟨x2, hx2, hpg⟩ := hbNew2
      by_cases hwB2 : w ∈ B2
      · exact Or.inl hwB2
      · exact Or.inr ⟨x2, hx2, pathUnm_trans hpg
          (Relation.ReflTransGen.single
            ⟨(pathUnm_endpoint hpg).2, hwB2, ⟨nb, hgnb, hwchg⟩, hwg⟩)⟩

/-- The root-queue `extract_if` pass, characterized under the sweep
precondition established by the mark phase: an unreachable entry is
never rooted, so no re-trace fires, the heap passes through unchanged
and the queue splits by reachability. -/
theorem sweepRootsScan_spec (c : TraceColor) (fuel : Nat) :
    ∀ (R : List Nat) (h : Heap),
      (∀ p ∈ R, ∀ n, h p = some n →
        hIsReachable n.color c = false → n.roots = 0) →
      sweepRootsScan c fuel h R =
        (R.filter (fun p => reachB h c p),
         R.filter (fun p => !reachB h c p), h) := by
  intro R
  induction R with
  | nil => intro h _; rfl
  | cons p ps ih =>
    intro h hpre
    have hpre2 : ∀ q ∈ ps, ∀ n, h q = some n →
        hIsReachable n.color c = false → n.roots = 0 :=
      fun q hq => hpre q (List.mem_cons_of_mem p hq)
    cases hp : h p with
    | none =>
      have hrB : reachB h c p = false := by unfold reachB; rw [hp]
      simp only [sweepRootsScan, hp, ih h hpre2]
      rw [List.filter_cons_of_neg (by simp [hrB]),
        List.filter_cons_of_pos (by simp [hrB])]
      exact if_pos trivial
    | some n =>
      cases hreach : hIsReachable n.color c with
      | true =>
        have hrB : reachB h c p = true := by unfold reachB; rw [hp]; exact hreach
        simp only [sweepRootsScan, hp, hreach, Bool.not_true,
          Bool.false_eq_true, if_false, ih h hpre2]
        rw [List.filter_cons_of_pos (by simp [hrB]),
          List.filter_cons_of_neg (by simp [hrB])]
      | false =>
        have hroots : n.roots = 0 := hpre p (List.mem_cons_self p ps) n hp hreach
        have hrB : reachB h c p = false := by unfold reachB; rw [hp]; exact hreach
        have hnro : ¬ (n.roots > 0) := by rw [hroots]; exact Nat.lt_irrefl 0
        simp only [sweepRootsScan, hp, hreach, Bool.not_false, if_true,
          hnro, if_false, ih h hpre2]
        rw [List.filter_cons_of_neg (by simp [hrB]),
          List.filter_cons_of_pos (by simp [hrB])]

/-- The root drop loop, characterized when every extracted entry is
unrooted: no revival occurs, and all extracted nodes are freed. -/
theorem dropRootsLoop_spec :
    ∀ (l : List Nat) (h : Heap),
      (∀ p ∈ l, ∀ n, h p = some n → n.roots = 0) →
      dropRootsLoop h l = (removeList h l, []) := by
  intro l
  induction l with
  | nil =>
    intro h _
    unfold dropRootsLoop removeList
    simp
  | cons p ps ih =>
    intro h hpre
    have hpre2 : ∀ q ∈ ps, ∀ n, h q = some n → n.roots = 0 :=
      fun q hq => hpre q (List.mem_cons_of_mem p hq)
    cases hp : h p with
    | none =>
      have hstep : dropRootsLoop h (p :: ps) = dropRootsLoop h ps := by
        simp only [dropRootsLoop, hp]
      rw [hstep, ih h hpre2]
      refine Prod.ext ?_ rfl
      funext id
      unfold removeList
      by_cases hid : id ∈ p :: ps
      · rcases List.mem_cons.mp hid with h1 | h1
        · subst h1
          by_cases h2 : id ∈ ps <;> simp [hid, h2, hp]
        · simp [hid, h1]
      · have h2 : id ∉ ps := fun hmem => hid (List.mem_cons_of_mem p hmem)
        simp [hid, h2]
    | some n =>
      have hroots : n.roots = 0 := hpre p (List.mem_cons_self p ps) n hp
      have hnro : ¬ (n.roots > 0) := by rw [hroots]; exact Nat.lt_irrefl 0
      simp only [dropRootsLoop, hp]
      rw [if_neg hnro]
      have hpre3 : ∀ q ∈ ps, ∀ m, removeNode h p q = some m → m.roots = 0 := by
        intro q hq m hm
        unfold removeNode at hm
        by_cases hqp : q = p
        · rw [if_pos hqp] at hm; cases hm
        · rw [if_neg hqp] at hm; exact hpre2 q hq m hm
      rw [ih (removeNode h p) hpre3]
      refine Prod.ext ?_ rfl
      funext id
      unfold removeList removeNode
      by_cases hid : id ∈ p :: ps
      · rcases List.mem_cons.mp hid with h1 | h1
        · subst h1
          by_cases h2 : id ∈ ps <;> simp [hid, h2]
        · simp [hid, h1]
      · have h2 : id ∉ ps := fun hmem => hid (List.mem_cons_of_mem p hmem)
        have h3 : ¬ id = p := fun hmem => hid (hmem ▸ List.mem_cons_self p ps)
        simp [hid, h2, h3]

/-- The ephemeron drop loop, characterized when every extracted entry
is unreachable: none survives, and all are freed from the store. -/
theorem dropEphsLoop_spec (c : TraceColor) (h : Heap) :
    ∀ (l : List Nat) (eh : EphHeap),
      (∀ e ∈ l, ephReachable h eh e c = false) →
      dropEphsLoop c h eh l = (removeEphList eh l, []) := by
  intro l
  induction l with
  | nil =>
    intro eh _
    unfold dropEphsLoop removeEphList
    simp
  | cons e es ih =>
    intro eh hpre
    have hre : ephReachable h eh e c = false := hpre e (List.mem_cons_self e es)
    simp only [dropEphsLoop, hre, Bool.false_eq_true, if_false]
    have hpre2 : ∀ x ∈ es, ephReachable h (removeEph eh e) x c = false := by
      intro x hx
      cases hr2 : ephReachable h (removeEph eh e) x c with
      | false => rfl
      | true =>
        have := removeEph_reachable h eh e x c hr2
        rw [hpre x (List.mem_cons_of_mem e hx)] at this
        cases this
    rw [ih (removeEph eh e) hpre2]
    refine Prod.ext ?_ rfl
    funext x
    unfold removeEphList removeEph
    by_cases hx : x ∈ e :: es
    · rcases List.mem_cons.mp hx with h1 | h1
      · subst h1
        by_cases h2 : x ∈ es <;> simp [hx, h2]
      · simp [hx, h1]
    · have h2 : x ∉ es := fun hmem => hx (List.mem_cons_of_mem e hmem)
      have h3 : ¬ x = e := fun hmem => hx (hmem ▸ List.mem_cons_self e es)
      simp [hx, h2, h3]

theorem ehMatches_refl (eh : EphHeap) : ehMatches eh eh := by
  intro x
  cases hx : eh x with
  | none => exact Or.inl ⟨rfl, rfl⟩
  | some en =>
    refine Or.inr ⟨en, en.valColor, rfl, ?_⟩
    cases en
    rfl

theorem ephNode_update_collapse (en : EphNode) (v w : HColor) :
    ({ { en with valColor := v } with valColor := w } : EphNode) =
      { en with valColor := w } := by
  cases en
  rfl

/-- Across the ephemeron loop of the mark phase, the inline value box
of every surviving record either keeps its color or ends fully marked:
the grey write inside `trace_fn` is always followed by the mark. -/
theorem markFold_valColors (c : TraceColor) (fuel : Nat) :
    ∀ (E : List Nat) (h : Heap) (eh : EphHeap) (x : Nat) (en2 : EphNode),
      (E.foldl (fun (he : Heap × EphHeap) e =>
        if ephReachable he.1 he.2 e c then traceEph c fuel he.1 he.2 e else he)
        (h, eh)).2 x = some en2 →
      ∃ en, eh x = some en ∧
        (en2 = en ∨ en2 = { en with valColor := markedFor c }) := by
  intro E
  induction E with
  | nil =>
    intro h eh x en2 hx
    exact ⟨en2, hx, Or.inl rfl⟩
  | cons a E ih =>
    intro h eh x en2 hx
    rw [List.foldl_cons] at hx
    by_cases hg : ephReachable h eh a c = true
    · rw [if_pos hg] at hx
      cases hea : eh a with
      | none =>
        have hstep : traceEph c fuel h eh a = (h, eh) := by
          unfold traceEph
          rw [hea]
        rw [hstep] at hx
        exact ih h eh x en2 hx
      | some en0 =>
        rw [traceEph_eq hea c fuel h] at hx
        by_cases hval : en0.valColor = unmarkedFor c
        · rw [if_pos hval] at hx
          obtain ⟨en, h1, h2⟩ := ih _ _ x en2 hx
          by_cases hxa : x = a
          · subst hxa
            rw [setValColor_eq, if_pos rfl, setValColor_eq, if_pos rfl, hea] at h1
            have hen : en = { { en0 with valColor := HColor.grey }
                with valColor := markedFor c } := by
              exact (Option.some.inj h1).symm
            rw [ephNode_update_collapse] at hen
            refine ⟨en0, hea, Or.inr ?_⟩
            rcases h2 with h2 | h2
            · rw [h2, hen]
            · rw [h2, hen, ephNode_update_collapse]
          · rw [setValColor_eq, if_neg hxa, setValColor_eq, if_neg hxa] at h1
            exact ⟨en, h1, h2⟩
        · rw [if_neg hval] at hx
          exact ih _ _ x en2 hx
    · rw [if_neg hg] at hx
      exact ih h eh x en2 hx

/-- `runMarkPhase` written out: the heap is the eph-loop fold over the
root-loop fold, the store is the loop's second component. -/
theorem runMarkPhase_eq (fuel : Nat) (s : GcState) :
    runMarkPhase fuel s = { s with
      heap := (s.ephQueue.foldl
        (fun (he : Heap × EphHeap) e =>
          if ephReachable he.1 he.2 e s.traceColor then
            traceEph s.traceColor fuel he.1 he.2 e
          else he)
        (s.rootQueue.foldl (markRootsStep s.traceColor fuel) s.heap, s.ephs)).1,
      ephs := (s.ephQueue.foldl
        (fun (he : Heap × EphHeap) e =>
          if ephReachable he.1 he.2 e s.traceColor then
            traceEph s.traceColor fuel he.1 he.2 e
          else he)
        (s.rootQueue.foldl (markRootsStep s.traceColor fuel) s.heap, s.ephs)).2 } :=
  rfl

/-- `run_mark_phase`, characterized against the state it starts from:
starting from an all-unmarked heap whose live nodes are all tracked by
the root queue, the phase marks exactly `markPhaseSpec`, preserves the
heap shape and the ephemeron records up to value color, leaves
untracked records untouched, and fully marks the inline value of every
ephemeron whose fire condition holds at its queue position. -/
theorem runMarkPhase_spec (fuel : Nat) (s : GcState)
    (hnodupE : s.ephQueue.Nodup)
    (hr : realizes s.heap s.traceColor ∅ ∅)
    (hU : ∀ id, aliveIn s.heap id → id ∈ s.rootQueue)
    (hfuel : countUnm s.heap s.traceColor s.rootQueue < fuel) :
    sameShape s.heap (runMarkPhase fuel s).heap ∧
    realizes (runMarkPhase fuel s).heap s.traceColor (markPhaseSpec s) ∅ ∧
    ehMatches s.ephs (runMarkPhase fuel s).ephs ∧
    (∀ x, x ∉ s.ephQueue → (runMarkPhase fuel s).ephs x = s.ephs x) ∧
    (∀ (E1 : List Nat) (e : Nat) (E2 : List Nat), s.ephQueue = E1 ++ e :: E2 →
      (∃ en0, s.ephs e = some en0 ∧ en0.active = true ∧
        aliveIn s.heap en0.key ∧
        en0.key ∈ ephFoldSpec s.heap s.traceColor s.ephs E1
          (newMark s.heap ∅
            (s.rootQueue.filter (fun p => rootedB s.heap p))) ∧
        en0.valColor = unmarkedFor s.traceColor) →
      ∃ en0, s.ephs e = some en0 ∧
        (runMarkPhase fuel s).ephs e =
          some { en0 with valColor := markedFor s.traceColor }) := by
  have hml := markRoots_foldl_eq s.traceColor fuel s.rootQueue s.heap
  have hshape1 : sameShape s.heap
      (s.rootQueue.foldl (markRootsStep s.traceColor fuel) s.heap) := by
    rw [hml]
    exact sameShape_traceList s.traceColor fuel _ s.heap
  have hr1raw := traceList_marks s.traceColor fuel
    (traceNode_marks s.traceColor fuel)
    (s.rootQueue.filter (fun p => rootedB s.heap p)) s.heap ∅ ∅ s.rootQueue
    hr hU hfuel
  have hM0eq : (∅ : Set Nat) ∪ newMark s.heap ((∅ : Set Nat) ∪ ∅)
      (s.rootQueue.filter (fun p => rootedB s.heap p)) =
      newMark s.heap ∅ (s.rootQueue.filter (fun p => rootedB s.heap p)) := by
    rw [Set.empty_union, Set.empty_union]
  have hr1 : realizes (s.rootQueue.foldl (markRootsStep s.traceColor fuel) s.heap)
      s.traceColor
      (newMark s.heap ∅ (s.rootQueue.filter (fun p => rootedB s.heap p))) ∅ := by
    rw [hml]
    exact realizes_congr hr1raw hM0eq rfl
  have hsub : (∅ : Set Nat) ∪ ∅ ⊆
      newMark s.heap ∅ (s.rootQueue.filter (fun p => rootedB s.heap p)) ∪ ∅ := by
    rw [Set.empty_union]
    exact Set.empty_subset _
  have hcount1 : countUnm (s.rootQueue.foldl (markRootsStep s.traceColor fuel) s.heap)
      s.traceColor s.rootQueue < fuel :=
    Nat.lt_of_le_of_lt
      (countP_mono_of_imp s.rootQueue (isUnm_imp_of_realizes hshape1 hr hr1 hsub))
      hfuel
  obtain ⟨c1, c2, c3, c4, c5⟩ := ephLoop_marks s.traceColor fuel s.heap s.ephs
    s.ephQueue (s.rootQueue.foldl (markRootsStep s.traceColor fuel) s.heap)
    s.ephs (newMark s.heap ∅ (s.rootQueue.filter (fun p => rootedB s.heap p)))
    s.rootQueue hnodupE hshape1 hr1 hU hcount1
    (fun _ _ => rfl) (ehMatches_refl s.ephs) _ rfl
  exact ⟨c1, c2, c3, c4, c5⟩

/-- `run_sweep_phase`, characterized under the invariant the mark phase
guarantees (an unreachable tracked node is never rooted, so neither the
finalizer re-trace nor the drop-loop revival fires): queues are
filtered by reachability and exactly the unreachable entries are freed. -/
theorem runSweepPhase_spec (fuel : Nat) (t : GcState)
    (hroots : ∀ p ∈ t.rootQueue, ∀ n, t.heap p = some n →
      hIsReachable n.color t.traceColor = false → n.roots = 0) :
    runSweepPhase fuel t = { t with
      heap := removeList t.heap
        (t.rootQueue.filter (fun p => !reachB t.heap t.traceColor p)),
      ephs := removeEphList t.ephs
        (t.ephQueue.filter
          (fun e => !(ephReachable t.heap t.ephs e t.traceColor))),
      rootQueue := t.rootQueue.filter (fun p => reachB t.heap t.traceColor p),
      ephQueue := t.ephQueue.filter
        (fun e => ephReachable t.heap t.ephs e t.traceColor) } := by
  have hscan := sweepRootsScan_spec t.traceColor fuel t.rootQueue t.heap hroots
  have hpreE : ∀ e ∈ t.ephQueue.filter
      (fun e => !(ephReachable t.heap t.ephs e t.traceColor)),
      ephReachable t.heap t.ephs e t.traceColor = false := by
    intro e he
    have := List.of_mem_filter he
    simpa using this
  have hpreR : ∀ p ∈ t.rootQueue.filter
      (fun p => !reachB t.heap t.traceColor p),
      ∀ n, t.heap p = some n → n.roots = 0 := by
    intro p hp n hn
    have hmem := List.mem_of_mem_filter hp
    have hrB : reachB t.heap t.traceColor p = false := by
      simpa using List.of_mem_filter hp
    have hnr : hIsReachable n.color t.traceColor = false := by
      unfold reachB at hrB
      rw [hn] at hrB
      exact hrB
    exact hroots p hmem n hn hnr
  simp only [runSweepPhase, hscan, sweepEphsScan_eq,
    dropEphsLoop_spec t.traceColor t.heap _ t.ephs hpreE,
    dropRootsLoop_spec _ t.heap hpreR, List.append_nil]

/-- `collect` written out through the identity phases. -/
theorem collect_eq (s : GcState) :
    collect s = { flushPendingPhase (flipEpochPhase (runSweepPhase (collectFuel s)
      (runMarkPhase (collectFuel s) { s with isCollecting := true })))
      with isCollecting := false } := rfl

/-- `collect` from a steady state, characterized: with `m` the state
after the mark phase, the marked set is exactly `markPhaseSpec`, and
the sweep filters both queues by reachability in `m`, frees exactly
the unreachable tracked nodes and ephemerons, flips the epoch color
and leaves the pending queues empty. -/
theorem collect_steady (s : GcState) (hst : SteadyState s) (m : GcState)
    (hmdef : m = runMarkPhase (collectFuel s) { s with isCollecting := true }) :
    sameShape s.heap m.heap ∧
    realizes m.heap s.traceColor (markPhaseSpec s) ∅ ∧
    ehMatches s.ephs m.ephs ∧
    (∀ (E1 : List Nat) (e : Nat) (E2 : List Nat), s.ephQueue = E1 ++ e :: E2 →
      (∃ en0, s.ephs e = some en0 ∧ en0.active = true ∧
        aliveIn s.heap en0.key ∧
        en0.key ∈ ephFoldSpec s.heap s.traceColor s.ephs E1
          (newMark s.heap ∅
            (s.rootQueue.filter (fun p => rootedB s.heap p))) ∧
        en0.valColor = unmarkedFor s.traceColor) →
      ∃ en0, s.ephs e = some en0 ∧
        m.ephs e = some { en0 with valColor := markedFor s.traceColor }) ∧
    (∀ e en2, m.ephs e = some en2 → ∃ en, s.ephs e = some en ∧
      (en2 = en ∨ en2 = { en with valColor := markedFor s.traceColor })) ∧
    collect s = { s with
      heap := removeList m.heap
        (s.rootQueue.filter (fun p => !reachB m.heap s.traceColor p)),
      ephs := removeEphList m.ephs
        (s.ephQueue.filter
          (fun e => !(ephReachable m.heap m.ephs e s.traceColor))),
      rootQueue := s.rootQueue.filter (fun p => reachB m.heap s.traceColor p),
      ephQueue := s.ephQueue.filter
        (fun e => ephReachable m.heap m.ephs e s.traceColor),
      traceColor := s.traceColor.flip,
      isCollecting := false,
      pendingRoots := [],
      pendingEphs := [] } := by
  subst hmdef
  have hfuel : countUnm s.heap s.traceColor s.rootQueue < collectFuel s := by
    have hle : s.rootQueue.countP (fun id => isUnm s.heap s.traceColor id) ≤
        s.rootQueue.length := List.countP_le_length _
    unfold collectFuel countUnm
    omega
  obtain ⟨m1, m2, m3, m4, m5⟩ := runMarkPhase_spec (collectFuel s)
    { s with isCollecting := true } hst.ephNodup hst.unmarked hst.rootsTrack hfuel
  have hrootedM : ∀ p n,
      (runMarkPhase (collectFuel s) { s with isCollecting := true }).heap p
        = some n → 0 < n.roots → p ∈ markPhaseSpec s := by
    intro p n hn hro
    obtain ⟨n0, hn0, hroots0, _⟩ := strip_eq_extract (m1 p).symm hn
    have halp : aliveIn s.heap p := by
      unfold aliveIn
      rw [hn0]
      rfl
    have hrb : rootedB s.heap p = true := by
      unfold rootedB
      rw [hn0]
      exact decide_eq_true (by rw [hroots0]; exact hro)
    have hmem : p ∈ s.rootQueue.filter (fun q => rootedB s.heap q) :=
      List.mem_filter.mpr ⟨hst.rootsTrack p halp, hrb⟩
    exact ephFoldSpec_grow s.heap s.traceColor s.ephs s.ephQueue _
      ⟨p, hmem, halp, Set.not_mem_empty p, Relation.ReflTransGen.refl⟩
  have hroots : ∀ p ∈ s.rootQueue, ∀ n,
      (runMarkPhase (collectFuel s) { s with isCollecting := true }).heap p
        = some n →
      hIsReachable n.color s.traceColor = false → n.roots = 0 := by
    intro p _ n hn hnr
    by_contra hne
    have hro : 0 < n.roots := Nat.pos_of_ne_zero hne
    have hcol : n.color = markedFor s.traceColor :=
      (m2 p n hn).1.mpr (hrootedM p n hn hro)
    have hre : hIsReachable n.color s.traceColor = true :=
      (hIsReachable_iff n.color s.traceColor).mpr (Or.inl hcol)
    rw [hre] at hnr
    simp at hnr
  have m6 : ∀ e en2,
      (runMarkPhase (collectFuel s) { s with isCollecting := true }).ephs e
        = some en2 →
      ∃ en, s.ephs e = some en ∧
        (en2 = en ∨ en2 = { en with valColor := markedFor s.traceColor }) := by
    intro e en2 he
    exact markFold_valColors s.traceColor (collectFuel s) s.ephQueue
      (s.rootQueue.foldl (markRootsStep s.traceColor (collectFuel s)) s.heap)
      s.ephs e en2 he
  refine ⟨m1, m2, m3, m5, m6, ?_⟩
  rw [collect_eq s]
  rw [runSweepPhase_spec (collectFuel s)
    (runMarkPhase (collectFuel s) { s with isCollecting := true }) hroots]
  rw [runMarkPhase_eq]
  simp only [flipEpochPhase, flushPendingPhase, hst.pendR, hst.pendE,
    List.append_nil]

/-- The state after a steady-state `collect` is itself steady, every
marked node survives with its shape intact, and the surviving queues
are recoverable from the mark-phase verdicts. -/
theorem collect_steady_facts (s : GcState) (hst : SteadyState s) (m : GcState)
    (hmdef : m = runMarkPhase (collectFuel s) { s with isCollecting := true }) :
    SteadyState (collect s) ∧
    (∀ z, aliveIn (collect s).heap z →
      ((collect s).heap z).map strip = (s.heap z).map strip) ∧
    (∀ z ∈ markPhaseSpec s, aliveIn (collect s).heap z) ∧
    (∀ p ∈ (collect s).rootQueue,
      p ∈ markPhaseSpec s ∧ aliveIn (collect s).heap p) ∧
    (∀ p ∈ s.rootQueue, p ∈ markPhaseSpec s → p ∈ (collect s).rootQueue) ∧
    (∀ e, ephReachable m.heap m.ephs e s.traceColor = true →
      (collect s).ephs e = m.ephs e) := by
  obtain ⟨f1, f2, f3, _, f5, hrec⟩ := collect_steady s hst m hmdef
  have halive_ms : ∀ id, aliveIn m.heap id ↔ aliveIn s.heap id := sameShape_alive f1
  have hMfin_alive : ∀ z ∈ markPhaseSpec s, aliveIn s.heap z :=
    fun z hz => ephFoldSpec_alive (fun w hw => newMark_alive w hw) z hz
  have hmarked : ∀ z ∈ markPhaseSpec s,
      ∃ n, m.heap z = some n ∧ n.color = markedFor s.traceColor := by
    intro z hz
    have halm : aliveIn m.heap z := (halive_ms z).mpr (hMfin_alive z hz)
    cases hmz : m.heap z with
    | none =>
      unfold aliveIn at halm
      rw [hmz] at halm
      simp at halm
    | some n => exact ⟨n, rfl, (f2 z n hmz).1.mpr hz⟩
  have hreachB : ∀ z ∈ markPhaseSpec s,
      reachB m.heap s.traceColor z = true := by
    intro z hz
    obtain ⟨n, hmz, hcol⟩ := hmarked z hz
    unfold reachB
    rw [hmz]
    exact (hIsReachable_iff n.color s.traceColor).mpr (Or.inl hcol)
  have hreachB_inv : ∀ z n, m.heap z = some n →
      reachB m.heap s.traceColor z = true → z ∈ markPhaseSpec s := by
    intro z n hmz hrB
    unfold reachB at hrB
    rw [hmz] at hrB
    rcases (hIsReachable_iff n.color s.traceColor).mp hrB with hcol | hcol
    · exact (f2 z n hmz).1.mp hcol
    · exact absurd ((f2 z n hmz).2.mp hcol) (Set.not_mem_empty z)
  have hheap : ∀ z, (collect s).heap z = removeList m.heap
      (s.rootQueue.filter (fun p => !reachB m.heap s.traceColor p)) z := by
    intro z
    rw [hrec]
  have hephs : ∀ e, (collect s).ephs e = removeEphList m.ephs
      (s.ephQueue.filter
        (fun x => !(ephReachable m.heap m.ephs x s.traceColor))) e := by
    intro e
    rw [hrec]
  have hrQ : (collect s).rootQueue =
      s.rootQueue.filter (fun p => reachB m.heap s.traceColor p) := by
    rw [hrec]
  have heQ : (collect s).ephQueue =
      s.ephQueue.filter
        (fun e => ephReachable m.heap m.ephs e s.traceColor) := by
    rw [hrec]
  have htc : (collect s).traceColor = s.traceColor.flip := by rw [hrec]
  have halσ : ∀ z, aliveIn (collect s).heap z ↔
      (z ∈ markPhaseSpec s ∧ aliveIn s.heap z) := by
    intro z
    constructor
    · intro hal
      have hal' : (removeList m.heap
          (s.rootQueue.filter (fun p => !reachB m.heap s.traceColor p)) z).isSome
          = true := by
        rw [← hheap z]
        exact hal
      unfold removeList at hal'
      by_cases hzL : z ∈ s.rootQueue.filter
          (fun p => !reachB m.heap s.traceColor p)
      · rw [if_pos hzL] at hal'
        simp at hal'
      · rw [if_neg hzL] at hal'
        cases hmz : m.heap z with
        | none =>
          rw [hmz] at hal'
          simp at hal'
        | some n =>
          have halz : aliveIn s.heap z := (halive_ms z).mp
            (by unfold aliveIn; rw [hmz]; rfl)
          have hzR : z ∈ s.rootQueue := hst.rootsTrack z halz
          have hrB : reachB m.heap s.traceColor z = true := by
            by_contra hF
            have hrBf : reachB m.heap s.traceColor z = false := by
              cases hcase : reachB m.heap s.traceColor z
              · rfl
              · exact absurd hcase hF
            exact hzL (List.mem_filter.mpr ⟨hzR, by rw [hrBf]; rfl⟩)
          exact ⟨hreachB_inv z n hmz hrB, halz⟩
    · rintro ⟨hzM, hzal⟩
      have hrB := hreachB z hzM
      have hzL : z ∉ s.rootQueue.filter
          (fun p => !reachB m.heap s.traceColor p) := by
        intro hzL
        have hneg := List.of_mem_filter hzL
        rw [hrB] at hneg
        simp at hneg
      unfold aliveIn
      rw [hheap z]
      unfold removeList
      rw [if_neg hzL]
      exact (halive_ms z).mpr hzal
  have hsurvC : ∀ e, ephReachable m.heap m.ephs e s.traceColor = true →
      (collect s).ephs e = m.ephs e := by
    intro e hsurv
    rw [hephs e]
    unfold removeEphList
    rw [if_neg ?_]
    intro heL
    have hneg := List.of_mem_filter heL
    rw [hsurv] at hneg
    simp at hneg
  have hstripσ : ∀ z, aliveIn (collect s).heap z →
      ((collect s).heap z).map strip = (s.heap z).map strip := by
    intro z hal
    obtain ⟨hzM, hzal⟩ := (halσ z).mp hal
    have hrB := hreachB z hzM
    have hzL : z ∉ s.rootQueue.filter
        (fun p => !reachB m.heap s.traceColor p) := by
      intro hzL
      have hneg := List.of_mem_filter hzL
      rw [hrB] at hneg
      simp at hneg
    have hz2 : (collect s).heap z = m.heap z := by
      rw [hheap z]
      unfold removeList
      rw [if_neg hzL]
    rw [hz2]
    exact f1 z
  have hrootQmem : ∀ p ∈ (collect s).rootQueue,
      p ∈ markPhaseSpec s ∧ aliveIn (collect s).heap p := by
    intro p hp
    rw [hrQ] at hp
    have hpR := List.mem_of_mem_filter hp
    have hrB := List.of_mem_filter hp
    have halp : aliveIn s.heap p := hst.rootsAlive p hpR
    have halm : aliveIn m.heap p := (halive_ms p).mpr halp
    cases hmz : m.heap p with
    | none =>
      unfold aliveIn at halm
      rw [hmz] at halm
      simp at halm
    | some n =>
      have hpM := hreachB_inv p n hmz hrB
      exact ⟨hpM, (halσ p).mpr ⟨hpM, halp⟩⟩
  have hrootQmem2 : ∀ p ∈ s.rootQueue, p ∈ markPhaseSpec s →
      p ∈ (collect s).rootQueue := by
    intro p hp hpM
    rw [hrQ]
    exact List.mem_filter.mpr ⟨hp, hreachB p hpM⟩
  refine ⟨⟨?_, ?_, ?_, ?_, ?_, ?_, ?_, ?_, ?_⟩,
    hstripσ, fun z hz => (halσ z).mpr ⟨hz, hMfin_alive z hz⟩,
    hrootQmem, hrootQmem2, hsurvC⟩
  · -- unmarked
    intro id n hσ
    have hσ' : removeList m.heap
        (s.rootQueue.filter (fun p => !reachB m.heap s.traceColor p)) id
        = some n := by
      rw [← hheap id]
      exact hσ
    unfold removeList at hσ'
    by_cases hzL : id ∈ s.rootQueue.filter
        (fun p => !reachB m.heap s.traceColor p)
    · rw [if_pos hzL] at hσ'
      cases hσ'
    · rw [if_neg hzL] at hσ'
      have halz : aliveIn s.heap id := (halive_ms id).mp
        (by unfold aliveIn; rw [hσ']; rfl)
      have hzR : id ∈ s.rootQueue := hst.rootsTrack id halz
      have hrB : reachB m.heap s.traceColor id = true := by
        by_contra hF
        have hrBf : reachB m.heap s.traceColor id = false := by
          cases hcase : reachB m.heap s.traceColor id
          · rfl
          · exact absurd hcase hF
        exact hzL (List.mem_filter.mpr ⟨hzR, by rw [hrBf]; rfl⟩)
      have hpM := hreachB_inv id n hσ' hrB
      have hcol : n.color = markedFor s.traceColor := (f2 id n hσ').1.mpr hpM
      rw [htc]
      constructor
      · constructor
        · intro hcol'
          rw [markedFor_flip, hcol] at hcol'
          exact absurd hcol' (markedFor_ne_unmarkedFor s.traceColor)
        · intro hmem
          exact absurd hmem (Set.not_mem_empty id)
      · constructor
        · intro hcol'
          rw [hcol] at hcol'
          exact absurd hcol' (markedFor_ne_grey s.traceColor)
        · intro hmem
          exact absurd hmem (Set.not_mem_empty id)
  · -- rootsTrack
    intro id hal
    obtain ⟨hzM, hzal⟩ := (halσ id).mp hal
    exact hrootQmem2 id (hst.rootsTrack id hzal) hzM
  · -- rootsAlive
    exact fun p hp => (hrootQmem p hp).2
  · -- ephsTrack
    intro e hσe
    have hσe' : (removeEphList m.ephs
        (s.ephQueue.filter
          (fun x => !(ephReachable m.heap m.ephs x s.traceColor))) e).isSome
        = true := by
      rw [← hephs e]
      exact hσe
    unfold removeEphList at hσe'
    by_cases heL : e ∈ s.ephQueue.filter
        (fun x => !(ephReachable m.heap m.ephs x s.traceColor))
    · rw [if_pos heL] at hσe'
      simp at hσe'
    · rw [if_neg heL] at hσe'
      have hsE : (s.ephs e).isSome = true := by
        rcases f3 e with ⟨h1, h2⟩ | ⟨en0, cv, h1, h2⟩
        · rw [h2] at hσe'
          simp at hσe'
        · rw [h1]
          rfl
      have heE : e ∈ s.ephQueue := hst.ephsTrack e hsE
      have hsurv : ephReachable m.heap m.ephs e s.traceColor = true := by
        by_contra hF
        have hf : ephReachable m.heap m.ephs e s.traceColor = false := by
          cases hcase : ephReachable m.heap m.ephs e s.traceColor
          · rfl
          · exact absurd hcase hF
        exact heL (List.mem_filter.mpr ⟨heE, by rw [hf]; rfl⟩)
      rw [heQ]
      exact List.mem_filter.mpr ⟨heE, hsurv⟩
  · -- ephsAlive
    intro e he
    rw [heQ] at he
    have hsurv := List.of_mem_filter he
    rw [hsurvC e hsurv]
    cases hme : m.ephs e with
    | none =>
      rw [ephReachable_none hme] at hsurv
      cases hsurv
    | some en => rfl
  · -- ephNodup
    rw [heQ]
    exact hst.ephNodup.filter _
  · -- ephUnmarked
    intro e en' hσe
    have hσe' : removeEphList m.ephs
        (s.ephQueue.filter
          (fun x => !(ephReachable m.heap m.ephs x s.traceColor))) e
        = some en' := by
      rw [← hephs e]
      exact hσe
    unfold removeEphList at hσe'
    by_cases heL : e ∈ s.ephQueue.filter
        (fun x => !(ephReachable m.heap m.ephs x s.traceColor))
    · rw [if_pos heL] at hσe'
      cases hσe'
    · rw [if_neg heL] at hσe'
      obtain ⟨en, hsen, hcase⟩ := f5 e en' hσe'
      rw [htc, markedFor_flip, unmarkedFor_flip]
      rcases hcase with hcc | hcc
      · rw [hcc]
        rcases hst.ephUnmarked e en hsen with hv | hv
        · exact Or.inr hv
        · exact Or.inl hv
      · rw [hcc]
        exact Or.inl rfl
  · -- pendingRoots
    rw [hrec]
  · -- pendingEphs
    rw [hrec]

/-- The spec-level marked set of one mark phase transfers to the next
cycle: every node marked by the first cycle's ephemeron fold is marked
again by the second cycle's fold over the surviving queue, provided the
surviving heap keeps the shape of the marked nodes, fired ephemerons
survive with their value marked, and the second accumulator starts
above the first and child-closed. -/
theorem specFold_subset (c : TraceColor) (h0 g : Heap) (eh0 eh2 : EphHeap)
    (Efull : List Nat) (M0 : Set Nat) (survB : Nat → Bool)
    (Hstrip : ∀ z, aliveIn g z → (g z).map strip = (h0 z).map strip)
    (Halive : ∀ z ∈ ephFoldSpec h0 c eh0 Efull M0, aliveIn g z)
    (Hfired : ∀ (E1 : List Nat) (e : Nat) (E2 : List Nat),
      Efull = E1 ++ e :: E2 →
      (∃ en0, eh0 e = some en0 ∧ en0.active = true ∧ aliveIn h0 en0.key ∧
        en0.key ∈ ephFoldSpec h0 c eh0 E1 M0 ∧
        en0.valColor = unmarkedFor c) →
      ∃ en0, eh0 e = some en0 ∧ survB e = true ∧
        eh2 e = some { en0 with valColor := markedFor c }) :
    ∀ (E E1 : List Nat) (M M' : Set Nat),
      Efull = E1 ++ E →
      M = ephFoldSpec h0 c eh0 E1 M0 →
      M ⊆ M' → childClosed g M' →
      ephFoldSpec h0 c eh0 E M ⊆
        ephFoldSpec g c.flip eh2 (E.filter survB) M' := by
  intro E
  induction E with
  | nil =>
    intro E1 M M' _ _ hMM _
    exact hMM
  | cons a E' ih =>
    intro E1 M M' hEfull hM hMM hcl
    have hsplit : Efull = (E1 ++ [a]) ++ E' := by
      rw [hEfull, List.append_assoc]
      rfl
    have hM1 : ephStepSpec h0 c eh0 M a =
        ephFoldSpec h0 c eh0 (E1 ++ [a]) M0 := by
      rw [ephFoldSpec_append, ← hM]
      rfl
    have hfull_eq : ephFoldSpec h0 c eh0 Efull M0 =
        ephFoldSpec h0 c eh0 (a :: E') M := by
      rw [hEfull, ephFoldSpec_append, hM]
    have hMfull : M ⊆ ephFoldSpec h0 c eh0 Efull M0 := by
      rw [hfull_eq]
      exact ephFoldSpec_grow h0 c eh0 (a :: E') M
    have hM1full : ephStepSpec h0 c eh0 M a ⊆
        ephFoldSpec h0 c eh0 Efull M0 := by
      rw [hfull_eq]
      intro z hz
      exact ephFoldSpec_grow h0 c eh0 E' (ephStepSpec h0 c eh0 M a) hz
    by_cases hfire : ∃ en0, eh0 a = some en0 ∧ en0.active = true ∧
        aliveIn h0 en0.key ∧ en0.key ∈ M ∧ en0.valColor = unmarkedFor c
    · obtain ⟨en0, he0, hact, halk, hkeyM, hval⟩ := hfire
      obtain ⟨en0', he0', hsurv, heh2⟩ := Hfired E1 a E' hEfull
        ⟨en0, he0, hact, halk, by rw [← hM]; exact hkeyM, hval⟩
      have hee : en0' = en0 := by
        rw [he0] at he0'
        exact (Option.some.inj he0').symm
      rw [hee] at heh2
      have hstep1 : ephStepSpec h0 c eh0 M a =
          M ∪ newMark h0 M en0.valChildren :=
        ephStepSpec_fire he0 hact halk hkeyM hval
      have halkg : aliveIn g en0.key := Halive en0.key (hMfull hkeyM)
      have hstep2 : ephStepSpec g c.flip eh2 M' a =
          M' ∪ newMark g M'
            ({ en0 with valColor := markedFor c } : EphNode).valChildren :=
        ephStepSpec_fire heh2 hact halkg (hMM hkeyM) (by rw [unmarkedFor_flip])
      have htrans : newMark h0 M en0.valChildren ⊆
          M' ∪ newMark g M' en0.valChildren := by
        refine newMark_transfer hMM hcl ?_ (fun x hx => hx)
        intro w hw
        have hwfull : w ∈ ephFoldSpec h0 c eh0 Efull M0 := by
          apply hM1full
          rw [hstep1]
          exact Or.inr hw
        have hwg : aliveIn g w := Halive w hwfull
        exact ⟨Hstrip w hwg, hwg⟩
      have hsub1 : ephStepSpec h0 c eh0 M a ⊆
          ephStepSpec g c.flip eh2 M' a := by
        rw [hstep1, hstep2]
        rintro z (hz | hz)
        · exact Or.inl (hMM hz)
        · exact htrans hz
      have hfilter : (a :: E').filter survB = a :: E'.filter survB :=
        List.filter_cons_of_pos hsurv
      rw [hfilter]
      have hLHS : ephFoldSpec h0 c eh0 (a :: E') M =
          ephFoldSpec h0 c eh0 E' (ephStepSpec h0 c eh0 M a) := rfl
      have hRHS : ephFoldSpec g c.flip eh2 (a :: E'.filter survB) M' =
          ephFoldSpec g c.flip eh2 (E'.filter survB)
            (ephStepSpec g c.flip eh2 M' a) := rfl
      rw [hLHS, hRHS]
      exact ih (E1 ++ [a]) (ephStepSpec h0 c eh0 M a)
        (ephStepSpec g c.flip eh2 M' a) hsplit hM1 hsub1
        (childClosed_ephStepSpec hcl a)
    · have hstep1 : ephStepSpec h0 c eh0 M a = M := by
        cases he0 : eh0 a with
        | none => exact ephStepSpec_none he0 M
        | some en =>
          refine ephStepSpec_nofire he0 ?_
          rintro ⟨h1, h2, h3, h4⟩
          exact hfire ⟨en, he0, h1, h2, h3, h4⟩
      have hLHS : ephFoldSpec h0 c eh0 (a :: E') M =
          ephFoldSpec h0 c eh0 E' M := by
        show ephFoldSpec h0 c eh0 E' (ephStepSpec h0 c eh0 M a) = _
        rw [hstep1]
      rw [hLHS]
      by_cases hs : survB a = true
      · rw [List.filter_cons_of_pos hs]
        have hRHS : ephFoldSpec g c.flip eh2 (a :: E'.filter survB) M' =
            ephFoldSpec g c.flip eh2 (E'.filter survB)
              (ephStepSpec g c.flip eh2 M' a) := rfl
        rw [hRHS]
        exact ih (E1 ++ [a]) M (ephStepSpec g c.flip eh2 M' a) hsplit
          (by rw [← hM1, hstep1])
          (fun z hz => ephStepSpec_grow g c.flip eh2 M' a (hMM hz))
          (childClosed_ephStepSpec hcl a)
      · have hsf : survB a = false := by
          cases hcase : survB a
          · rfl
          · exact absurd hcase hs
        rw [List.filter_cons_of_neg (by rw [hsf]; simp)]
        exact ih (E1 ++ [a]) M M' hsplit (by rw [← hM1, hstep1]) hMM hcl

theorem markPhaseSpec_alive (s : GcState) :
    ∀ z ∈ markPhaseSpec s, aliveIn s.heap z :=
  fun z hz => ephFoldSpec_alive (fun w hw => newMark_alive w hw) z hz

theorem markPhaseSpec_marked (s t : GcState)
    (f1 : sameShape s.heap t.heap)
    (f2 : realizes t.heap s.traceColor (markPhaseSpec s) ∅) :
    ∀ z ∈ markPhaseSpec s, ∃ n, t.heap z = some n ∧
      n.color = markedFor s.traceColor := by
  intro z hz
  have halm : aliveIn t.heap z :=
    (sameShape_alive f1 z).mpr (markPhaseSpec_alive s z hz)
  cases hmz : t.heap z with
  | none =>
    unfold aliveIn at halm
    rw [hmz] at halm
    simp at halm
  | some n => exact ⟨n, rfl, (f2 z n hmz).1.mpr hz⟩

theorem markPhaseSpec_reachB (s t : GcState)
    (f1 : sameShape s.heap t.heap)
    (f2 : realizes t.heap s.traceColor (markPhaseSpec s) ∅) :
    ∀ z ∈ markPhaseSpec s, reachB t.heap s.traceColor z = true := by
  intro z hz
  obtain ⟨n, hmz, hcol⟩ := markPhaseSpec_marked s t f1 f2 z hz
  unfold reachB
  rw [hmz]
  exact (hIsReachable_iff n.color s.traceColor).mpr (Or.inl hcol)

theorem ephReachable_some {h : Heap} {eh : EphHeap} {e : Nat} {en : EphNode}
    (he : eh e = some en) (c : TraceColor) :
    ephReachable h eh e c = (en.active &&
      (match h en.key with
       | some kn => hIsReachable kn.color c
       | none => false)) := by
  unfold ephReachable
  rw [he]

/-- C3 (amended): at a steady state — pending queues drained, no node
grey, all nodes carrying the unmarked color of the coming cycle, and
every live node and ephemeron tracked by its queue — a second `collect`
with no intervening root changes leaves both the root queue and the
ephemeron queue exactly as the first left them, in the same order,
across the epoch-color flip each call performs. -/
theorem c3_collect_idempotent_steady (s : GcState) (hst : SteadyState s) :
    (collect (collect s)).rootQueue = (collect s).rootQueue ∧
    (collect (collect s)).ephQueue = (collect s).ephQueue := by
  obtain ⟨f1, f2, f3, f4, _, hrec⟩ := collect_steady s hst
    (runMarkPhase (collectFuel s) { s with isCollecting := true }) rfl
  obtain ⟨hst2, hstrip, halive, hrootQ, hrootQ2, hsurvC⟩ :=
    collect_steady_facts s hst
      (runMarkPhase (collectFuel s) { s with isCollecting := true }) rfl
  obtain ⟨g1, g2, g3, _, _, hrec2⟩ := collect_steady (collect s) hst2
    (runMarkPhase (collectFuel (collect s))
      { collect s with isCollecting := true }) rfl
  have htc : (collect s).traceColor = s.traceColor.flip := by rw [hrec]
  have hEQ : (collect s).ephQueue = s.ephQueue.filter
      (fun e => ephReachable
        (runMarkPhase (collectFuel s) { s with isCollecting := true }).heap
        (runMarkPhase (collectFuel s) { s with isCollecting := true }).ephs
        e s.traceColor) := by
    rw [hrec]
  have hRQ2 : (collect (collect s)).rootQueue = (collect s).rootQueue.filter
      (fun p => reachB
        (runMarkPhase (collectFuel (collect s))
          { collect s with isCollecting := true }).heap
        (collect s).traceColor p) := by
    rw [hrec2]
  have hEQ2 : (collect (collect s)).ephQueue = (collect s).ephQueue.filter
      (fun e => ephReachable
        (runMarkPhase (collectFuel (collect s))
          { collect s with isCollecting := true }).heap
        (runMarkPhase (collectFuel (collect s))
          { collect s with isCollecting := true }).ephs
        e (collect s).traceColor) := by
    rw [hrec2]
  have hsa : ∀ w ∈ newMark s.heap ∅
      (s.rootQueue.filter (fun p => rootedB s.heap p)),
      ((collect s).heap w).map strip = (s.heap w).map strip ∧
        aliveIn (collect s).heap w := by
    intro w hw
    have hwM : w ∈ markPhaseSpec s :=
      ephFoldSpec_grow s.heap s.traceColor s.ephs s.ephQueue _ hw
    exact ⟨hstrip w (halive w hwM), halive w hwM⟩
  have hxs : ∀ x ∈ s.rootQueue.filter (fun p => rootedB s.heap p),
      x ∈ (collect s).rootQueue.filter
        (fun p => rootedB (collect s).heap p) := by
    intro x hx
    have hxR := List.mem_of_mem_filter hx
    have hxB := List.of_mem_filter hx
    cases hsx : s.heap x with
    | none =>
      unfold rootedB at hxB
      rw [hsx] at hxB
      cases hxB
    | some n =>
      have hro : 0 < n.roots := by
        unfold rootedB at hxB
        rw [hsx] at hxB
        exact of_decide_eq_true hxB
      have halx : aliveIn s.heap x := by
        unfold aliveIn
        rw [hsx]
        rfl
      have hxM0 : x ∈ newMark s.heap ∅
          (s.rootQueue.filter (fun p => rootedB s.heap p)) :=
        ⟨x, hx, halx, Set.not_mem_empty x, Relation.ReflTransGen.refl⟩
      have hxM : x ∈ markPhaseSpec s :=
        ephFoldSpec_grow s.heap s.traceColor s.ephs s.ephQueue _ hxM0
      have hxQ2 : x ∈ (collect s).rootQueue := hrootQ2 x hxR hxM
      obtain ⟨nb, hσx, hrb, _⟩ := strip_eq_extract (hstrip x (halive x hxM)) hsx
      have hrooted2 : rootedB (collect s).heap x = true := by
        unfold rootedB
        rw [hσx]
        exact decide_eq_true (by rw [hrb]; exact hro)
      exact List.mem_filter.mpr ⟨hxQ2, hrooted2⟩
  have hM0sub : newMark s.heap ∅
      (s.rootQueue.filter (fun p => rootedB s.heap p)) ⊆
      newMark (collect s).heap ∅
        ((collect s).rootQueue.filter (fun p => rootedB (collect s).heap p)) := by
    have htr : newMark s.heap ∅
        (s.rootQueue.filter (fun p => rootedB s.heap p)) ⊆
        (∅ : Set Nat) ∪ newMark (collect s).heap ∅
          ((collect s).rootQueue.filter
            (fun p => rootedB (collect s).heap p)) :=
      newMark_transfer (Set.Subset.refl ∅) (childClosed_empty (collect s).heap)
        hsa hxs
    intro z hz
    rcases htr hz with hz0 | hz1
    · exact absurd hz0 (Set.not_mem_empty z)
    · exact hz1
  have hclM0 : childClosed (collect s).heap
      (newMark (collect s).heap ∅
        ((collect s).rootQueue.filter
          (fun p => rootedB (collect s).heap p))) := by
    have := childClosed_union_newMark (childClosed_empty (collect s).heap)
      ((collect s).rootQueue.filter (fun p => rootedB (collect s).heap p))
    rw [Set.empty_union] at this
    exact this
  have hfired : ∀ (E1 : List Nat) (e : Nat) (E2 : List Nat),
      s.ephQueue = E1 ++ e :: E2 →
      (∃ en0, s.ephs e = some en0 ∧ en0.active = true ∧
        aliveIn s.heap en0.key ∧
        en0.key ∈ ephFoldSpec s.heap s.traceColor s.ephs E1
          (newMark s.heap ∅
            (s.rootQueue.filter (fun p => rootedB s.heap p))) ∧
        en0.valColor = unmarkedFor s.traceColor) →
      ∃ en0, s.ephs e = some en0 ∧
        (fun x => ephReachable
          (runMarkPhase (collectFuel s) { s with isCollecting := true }).heap
          (runMarkPhase (collectFuel s) { s with isCollecting := true }).ephs
          x s.traceColor) e = true ∧
        (collect s).ephs e =
          some { en0 with valColor := markedFor s.traceColor } := by
    intro E1 e E2 heq hprem
    obtain ⟨en0, hs0, hT1⟩ := f4 E1 e E2 heq hprem
    obtain ⟨en0', hs0', hact, halk, hkeyPre, hval⟩ := hprem
    have hee : en0' = en0 := by
      rw [hs0] at hs0'
      exact (Option.some.inj hs0').symm
    rw [hee] at hact hkeyPre
    have hkeyM : en0.key ∈ markPhaseSpec s := by
      have hfull : markPhaseSpec s = ephFoldSpec s.heap s.traceColor s.ephs
          (e :: E2) (ephFoldSpec s.heap s.traceColor s.ephs E1
            (newMark s.heap ∅
              (s.rootQueue.filter (fun p => rootedB s.heap p)))) := by
        unfold markPhaseSpec
        rw [heq, ephFoldSpec_append]
      rw [hfull]
      exact ephFoldSpec_grow s.heap s.traceColor s.ephs (e :: E2) _ hkeyPre
    obtain ⟨kn, hkn, hcol⟩ := markPhaseSpec_marked s
      (runMarkPhase (collectFuel s) { s with isCollecting := true })
      f1 f2 en0.key hkeyM
    have hsurvb : ephReachable
        (runMarkPhase (collectFuel s) { s with isCollecting := true }).heap
        (runMarkPhase (collectFuel s) { s with isCollecting := true }).ephs
        e s.traceColor = true := by
      rw [ephReachable_some hT1]
      rw [Bool.and_eq_true]
      refine ⟨hact, ?_⟩
      simp only [hkn]
      exact (hIsReachable_iff kn.color s.traceColor).mpr (Or.inl hcol)
    exact ⟨en0, hs0, hsurvb, by rw [hsurvC e hsurvb]; exact hT1⟩
  have happ := specFold_subset s.traceColor s.heap (collect s).heap s.ephs
    (collect s).ephs s.ephQueue
    (newMark s.heap ∅ (s.rootQueue.filter (fun p => rootedB s.heap p)))
    (fun x => ephReachable
      (runMarkPhase (collectFuel s) { s with isCollecting := true }).heap
      (runMarkPhase (collectFuel s) { s with isCollecting := true }).ephs
      x s.traceColor)
    hstrip (fun z hz => halive z hz) hfired
    s.ephQueue []
    (newMark s.heap ∅ (s.rootQueue.filter (fun p => rootedB s.heap p)))
    (newMark (collect s).heap ∅
      ((collect s).rootQueue.filter (fun p => rootedB (collect s).heap p)))
    rfl rfl hM0sub hclM0
  have hconv : ephFoldSpec (collect s).heap s.traceColor.flip (collect s).ephs
      (s.ephQueue.filter
        (fun x => ephReachable
          (runMarkPhase (collectFuel s) { s with isCollecting := true }).heap
          (runMarkPhase (collectFuel s) { s with isCollecting := true }).ephs
          x s.traceColor))
      (newMark (collect s).heap ∅
        ((collect s).rootQueue.filter
          (fun p => rootedB (collect s).heap p))) =
      markPhaseSpec (collect s) := by
    unfold markPhaseSpec
    rw [htc, hEQ]
  have hsub : markPhaseSpec s ⊆ markPhaseSpec (collect s) := by
    intro z hz
    have h2 := happ hz
    rw [hconv] at h2
    exact h2
  constructor
  · rw [hRQ2]
    refine List.filter_eq_self.mpr ?_
    intro p hp
    exact markPhaseSpec_reachB (collect s)
      (runMarkPhase (collectFuel (collect s))
        { collect s with isCollecting := true })
      g1 g2 p (hsub (hrootQ p hp).1)
  · rw [hEQ2]
    refine List.filter_eq_self.mpr ?_
    intro e he
    have heF : e ∈ s.ephQueue.filter
        (fun x => ephReachable
          (runMarkPhase (collectFuel s) { s with isCollecting := true }).heap
          (runMarkPhase (collectFuel s) { s with isCollecting := true }).ephs
          x s.traceColor) := by
      rw [← hEQ]
      exact he
    have hsurvB := List.of_mem_filter heF
    have hσe : (collect s).ephs e =
        (runMarkPhase (collectFuel s) { s with isCollecting := true }).ephs e :=
      hsurvC e hsurvB
    cases hme : (runMarkPhase (collectFuel s)
        { s with isCollecting := true }).ephs e with
    | none =>
      rw [ephReachable_none hme] at hsurvB
      cases hsurvB
    | some en' =>
      rw [ephReachable_some hme, Bool.and_eq_true] at hsurvB
      obtain ⟨hact', hmatch⟩ := hsurvB
      cases hkey : (runMarkPhase (collectFuel s)
          { s with isCollecting := true }).heap en'.key with
      | none =>
        simp only [hkey] at hmatch
        exact Bool.noConfusion hmatch
      | some kn =>
        simp only [hkey] at hmatch
        have hkeyM : en'.key ∈ markPhaseSpec s := by
          rcases (hIsReachable_iff kn.color s.traceColor).mp hmatch with hc | hc
          · exact (f2 en'.key kn hkey).1.mp hc
          · exact absurd ((f2 en'.key kn hkey).2.mp hc) (Set.not_mem_empty _)
        obtain ⟨kn2, hkn2, hcol2⟩ := markPhaseSpec_marked (collect s)
          (runMarkPhase (collectFuel (collect s))
            { collect s with isCollecting := true })
          g1 g2 en'.key (hsub hkeyM)
        rw [ephReachable_ehMatches g3
          (runMarkPhase (collectFuel (collect s))
            { collect s with isCollecting := true }).heap
          e (collect s).traceColor]
        have hσe' : (collect s).ephs e = some en' := by
          rw [hσe]
          exact hme
        rw [ephReachable_some hσe', Bool.and_eq_true]
        refine ⟨hact', ?_⟩
        simp only [hkn2]
        exact (hIsReachable_iff kn2.color (collect s).traceColor).mpr
          (Or.inl hcol2)

/-- C3: counterexample to the claim as stated for arbitrary states.  In
`c3CounterState` no roots change between the calls, yet the first
`collect` keeps the unrooted node 0 (its stale color matches the sweep's
alive check) while the second sweeps it, so the root queues differ. -/
theorem c3_counterexample :
    (collect c3CounterState).rootQueue = [0] ∧
    (collect (collect c3CounterState)).rootQueue = [] ∧
    (collect (collect c3CounterState)).rootQueue ≠
      (collect c3CounterState).rootQueue := by
  decide

/-- C3 witness: the amended idempotence theorem applied to the concrete
steady state `c3SteadyExample`. -/
theorem c3_witness :
    (collect (collect c3SteadyExample)).rootQueue =
      (collect c3SteadyExample).rootQueue ∧
    (collect (collect c3SteadyExample)).ephQueue =
      (collect c3SteadyExample).ephQueue := by
  refine c3_collect_idempotent_steady c3SteadyExample
    ⟨?_, ?_, ?_, ?_, ?_, ?_, ?_, ?_, ?_⟩
  · intro id n hn
    simp only [c3SteadyExample] at hn
    by_cases hid : id = 0
    · subst hid
      rw [if_pos rfl] at hn
      have hn' : n = ⟨HColor.black, 1, []⟩ := (Option.some.inj hn).symm
      subst hn'
      refine ⟨⟨fun hcol => absurd hcol (by decide),
        fun h => absurd h (Set.not_mem_empty 0)⟩,
        ⟨fun hcol => absurd hcol (by decide),
        fun h => absurd h (Set.not_mem_empty 0)⟩⟩
    · rw [if_neg hid] at hn
      cases hn
  · intro id hal
    by_cases hid : id = 0
    · subst hid
      exact List.mem_singleton_self 0
    · exfalso
      unfold aliveIn at hal
      simp only [c3SteadyExample] at hal
      rw [if_neg hid] at hal
      simp at hal
  · intro p hp
    have hp0 : p = 0 := List.mem_singleton.mp hp
    subst hp0
    unfold aliveIn
    simp only [c3SteadyExample]
    rfl
  · intro e hsome
    exfalso
    simp only [c3SteadyExample] at hsome
    simp at hsome
  · intro e he
    simp only [c3SteadyExample] at he
    exact absurd he (List.not_mem_nil e)
  · exact List.nodup_nil
  · intro e en hen
    exfalso
    simp only [c3SteadyExample] at hen
    cases hen
  · rfl
  · rfl
